import Mathlib

/-!
Verification development for the starpack package manager core.

The C++ sources (update.cpp, chroot_util.cpp, list.cpp, main.cpp) are
shallowly embedded below: std::string values are modelled as lists of
characters, the line-oriented installed database as a list of lines,
and the while-loops of the source as structural recursions (with an
explicit fuel argument where the C++ loop works on a growing queue).
Iteration over std::unordered_map / std::unordered_set, whose order is
unspecified in C++, is modelled as iteration in insertion order; every
theorem relying on a concrete run is chosen so that its outcome does
not depend on that order.
-/

/-- Strings of the C++ source are modelled as lists of characters. -/
abbrev Str := List Char

/-- Converts a Lean string literal into the model representation. -/
def toL (s : String) : Str := s.toList

/-- The record terminator line of the installed database: forty dashes. -/
def dbTerminator : Str := toL "----------------------------------------"

/-! ## Version comparison (claim C4)

Embeds Updater::compareVersions (update.cpp) and the installer helpers
parseVersion / compareVersionSemantics (chroot_util.cpp). -/

/-- Whitespace as recognised by std::isspace in the default locale, used
by std::stoi when skipping leading whitespace. -/
def isCppSpace (c : Char) : Bool :=
  c == ' ' || c == '\t' || c == '\n' || c == Char.ofNat 11 || c == Char.ofNat 12 || c == '\r'

/-- Numeric value of a run of decimal digits. -/
def digitsVal (l : List Char) : Int :=
  l.foldl (fun acc c => acc * 10 + Int.ofNat (c.toNat - 48)) 0

/-- Model of `std::stoi(token)` as used inside try/catch in the source:
leading whitespace is skipped, an optional sign is read, then a run of
decimal digits; a missing digit run (`std::invalid_argument`) or a value
outside the int range (`std::out_of_range`) is caught by the caller and
turned into 0, so this model returns 0 in those cases. -/
def stoiOr0 (s : Str) : Int :=
  let t := s.dropWhile isCppSpace
  let sgn : Int := match t with | '-' :: _ => -1 | _ => 1
  let t2 := match t with | '-' :: r => r | '+' :: r => r | _ => t
  let digs := t2.takeWhile Char.isDigit
  if digs = [] then 0
  else
    let n := sgn * digitsVal digs
    if n > 2147483647 ∨ n < -2147483648 then 0 else n

/-- Tokeniser behind `std::getline(iss, token, '.')`: emits the text
between dots; a trailing dot produces no extra empty token, and the
empty string produces no token at all (the very first getline fails). -/
def splitDotsAux : List Char → List Char → List Str
  | [], acc => [acc.reverse]
  | '.' :: rest, acc =>
    acc.reverse :: (match rest with
      | [] => []
      | _ :: _ => splitDotsAux rest [])
  | c :: rest, acc => splitDotsAux rest (c :: acc)

/-- All dot-separated tokens of a version string, with the getline
semantics of the source (see splitDotsAux). -/
def splitDots (s : Str) : List Str :=
  match s with
  | [] => []
  | _ => splitDotsAux s []

/-- The tail of the comparison loop of Updater::compareVersions once v1
has run out of tokens: each remaining token of v2 is compared against 0. -/
def cmpNil : List Str → Int
  | [] => 0
  | t2 :: r2 =>
    let num2 := stoiOr0 t2
    if num2 > 0 then -1
    else if num2 < 0 then 1
    else cmpNil r2

/-- The token comparison loop of Updater::compareVersions (update.cpp).
Missing tokens are read as 0; the source's extra branches
`got1 && !got2 && num1 > 0` and `!got1 && got2 && num2 > 0` are
unreachable there because they run only after `num1 == num2` has been
established, so they are not reproduced. -/
def cmpLoop : List Str → List Str → Int
  | [], l2 => cmpNil l2
  | t1 :: r1, [] =>
    let num1 := stoiOr0 t1
    if num1 > 0 then 1
    else if num1 < 0 then -1
    else cmpLoop r1 []
  | t1 :: r1, t2 :: r2 =>
    let num1 := stoiOr0 t1
    let num2 := stoiOr0 t2
    if num1 > num2 then 1
    else if num1 < num2 then -1
    else cmpLoop r1 r2

/-- Updater::compareVersions (update.cpp, lines 390-423). -/
def Updater_compareVersions (v1 v2 : Str) : Int :=
  cmpLoop (splitDots v1) (splitDots v2)

/-- Installer parseVersion (chroot_util.cpp): split on dots, std::stoi
each token, pushing 0 when parsing fails. -/
def parseVersion (ver : Str) : List Int :=
  (splitDots ver).map stoiOr0

/-- The tail of the index loop of compareVersionSemantics when the first
component list is exhausted: remaining components compare against 0. -/
def cmpIntNil : List Int → Int
  | [] => 0
  | c2 :: r2 =>
    if 0 < c2 then -1
    else if 0 > c2 then 1
    else cmpIntNil r2

/-- The index loop of compareVersionSemantics (chroot_util.cpp,
lines 776-789): componentwise comparison over max(len1, len2) indices,
missing components read as 0. -/
def cmpInt : List Int → List Int → Int
  | [], l2 => cmpIntNil l2
  | c1 :: r1, [] =>
    if c1 < 0 then -1
    else if c1 > 0 then 1
    else cmpInt r1 []
  | c1 :: r1, c2 :: r2 =>
    if c1 < c2 then -1
    else if c1 > c2 then 1
    else cmpInt r1 r2

/-- Installer compareVersionSemantics (chroot_util.cpp, lines 776-789). -/
def compareVersionSemantics (v1 v2 : Str) : Int :=
  cmpInt (parseVersion v1) (parseVersion v2)

/-! ### Comparator laws (claim C4) -/

/-- Head of an integer list, with missing components reading as 0 as in
both comparison loops. -/
def hd0 : List Int → Int
  | [] => 0
  | a :: _ => a

/-- Tail of an integer list, empty lists staying empty. -/
def tl0 : List Int → List Int
  | [] => []
  | _ :: t => t

theorem cmpNil_eq_cmpIntNil (l : List Str) :
    cmpNil l = cmpIntNil (l.map stoiOr0) := by
  induction l with
  | nil => rfl
  | cons t r ih =>
    simp only [cmpNil, cmpIntNil, List.map]
    split_ifs with h1 h2 h3 h4 <;> first | rfl | omega | exact ih

theorem cmpLoop_eq_cmpInt (l1 l2 : List Str) :
    cmpLoop l1 l2 = cmpInt (l1.map stoiOr0) (l2.map stoiOr0) := by
  induction l1 generalizing l2 with
  | nil => simpa only [cmpLoop, cmpInt, List.map] using cmpNil_eq_cmpIntNil l2
  | cons t1 r1 ih =>
    cases l2 with
    | nil =>
      simp only [cmpLoop, cmpInt, List.map]
      split_ifs <;> first | rfl | omega | exact ih []
    | cons t2 r2 =>
      simp only [cmpLoop, cmpInt, List.map]
      split_ifs <;> first | rfl | omega | exact ih r2

theorem cmpInt_refl (l : List Int) : cmpInt l l = 0 := by
  induction l with
  | nil => rfl
  | cons a r ih =>
    simp only [cmpInt]
    split_ifs <;> first | omega | exact ih

theorem cmpIntNil_eq_neg (l : List Int) : cmpIntNil l = - cmpInt l [] := by
  induction l with
  | nil => rfl
  | cons a r ih =>
    simp only [cmpIntNil, cmpInt]
    split_ifs <;> first | omega | simpa using ih

theorem cmpInt_antisym (l1 l2 : List Int) : cmpInt l1 l2 = - cmpInt l2 l1 := by
  induction l1 generalizing l2 with
  | nil =>
    cases l2 with
    | nil => rfl
    | cons b r2 => simpa only [cmpInt] using cmpIntNil_eq_neg (b :: r2)
  | cons a r1 ih =>
    cases l2 with
    | nil =>
      have h := cmpIntNil_eq_neg (a :: r1)
      simp only [cmpInt] at h ⊢
      omega
    | cons b r2 =>
      have h := ih r2
      simp only [cmpInt]
      split_ifs <;> first | omega | (simp only []; omega) | exact h

theorem tl0_length (l : List Int) :
    (tl0 l).length ≤ l.length ∧ (l ≠ [] → (tl0 l).length + 1 = l.length) := by
  cases l <;> simp [tl0]

theorem cmpInt_unfold (l1 l2 : List Int) (h : ¬ (l1 = [] ∧ l2 = [])) :
    cmpInt l1 l2 =
      if hd0 l1 < hd0 l2 then -1
      else if hd0 l1 > hd0 l2 then 1
      else cmpInt (tl0 l1) (tl0 l2) := by
  cases l1 with
  | nil =>
    cases l2 with
    | nil => exact absurd ⟨rfl, rfl⟩ h
    | cons b r2 => simp only [cmpInt, cmpIntNil, hd0, tl0]
  | cons a r1 =>
    cases l2 with
    | nil => simp only [cmpInt, hd0, tl0]
    | cons b r2 => simp only [cmpInt, hd0, tl0]

theorem cmpInt_le_trans_aux :
    ∀ n l1 l2 l3, l1.length + l2.length + l3.length ≤ n →
      cmpInt l1 l2 ≤ 0 → cmpInt l2 l3 ≤ 0 → cmpInt l1 l3 ≤ 0 := by
  intro n
  induction n with
  | zero =>
    intro l1 l2 l3 hlen _ _
    have h1 : l1 = [] := by cases l1 <;> simp_all
    have h3 : l3 = [] := by cases l3 <;> simp_all
    subst h1; subst h3
    simp [cmpInt, cmpIntNil]
  | succ n ih =>
    intro l1 l2 l3 hlen h12 h23
    by_cases h13 : l1 = [] ∧ l3 = []
    · obtain ⟨e1, e3⟩ := h13; subst e1; subst e3
      simp [cmpInt, cmpIntNil]
    · -- establish head inequalities from the two hypotheses
      have hd12 : hd0 l1 ≤ hd0 l2 := by
        by_cases h' : l1 = [] ∧ l2 = []
        · obtain ⟨e1, e2⟩ := h'; subst e1; subst e2; simp [hd0]
        · rw [cmpInt_unfold l1 l2 h'] at h12
          split_ifs at h12 <;> omega
      have hd23 : hd0 l2 ≤ hd0 l3 := by
        by_cases h' : l2 = [] ∧ l3 = []
        · obtain ⟨e2, e3⟩ := h'; subst e2; subst e3; simp [hd0]
        · rw [cmpInt_unfold l2 l3 h'] at h23
          split_ifs at h23 <;> omega
      rw [cmpInt_unfold l1 l3 h13]
      split_ifs with c1 c2
      · omega
      · omega
      · -- heads of l1 and l3 agree, hence all three heads agree
        have heq12 : hd0 l1 = hd0 l2 := by omega
        have heq23 : hd0 l2 = hd0 l3 := by omega
        have t12 : cmpInt (tl0 l1) (tl0 l2) ≤ 0 := by
          by_cases h' : l1 = [] ∧ l2 = []
          · obtain ⟨e1, e2⟩ := h'; subst e1; subst e2; simp [cmpInt, cmpIntNil, tl0]
          · rw [cmpInt_unfold l1 l2 h'] at h12
            split_ifs at h12 <;> omega
        have t23 : cmpInt (tl0 l2) (tl0 l3) ≤ 0 := by
          by_cases h' : l2 = [] ∧ l3 = []
          · obtain ⟨e2, e3⟩ := h'; subst e2; subst e3; simp [cmpInt, cmpIntNil, tl0]
          · rw [cmpInt_unfold l2 l3 h'] at h23
            split_ifs at h23 <;> omega
        refine ih (tl0 l1) (tl0 l2) (tl0 l3) ?_ t12 t23
        have g1 := tl0_length l1
        have g2 := tl0_length l2
        have g3 := tl0_length l3
        have hne : l1 ≠ [] ∨ l3 ≠ [] := by
          by_contra hc
          push_neg at hc
          exact h13 ⟨hc.1, hc.2⟩
        rcases hne with hne | hne
        · have := g1.2 hne
          omega
        · have := g3.2 hne
          omega

theorem cmpInt_le_trans (l1 l2 l3 : List Int)
    (h12 : cmpInt l1 l2 ≤ 0) (h23 : cmpInt l2 l3 ≤ 0) : cmpInt l1 l3 ≤ 0 :=
  cmpInt_le_trans_aux (l1.length + l2.length + l3.length) l1 l2 l3 le_rfl h12 h23

/-- Claim C4: both version comparators (Updater::compareVersions and the
installer compareVersionSemantics) induce a total order on dot-separated
version strings in which missing components compare as zero: the
comparator is reflexive (cmp v v = 0), antisymmetric
(cmp a b = -(cmp b a)), and transitive on the induced order
(cmp a b ≤ 0 and cmp b c ≤ 0 imply cmp a c ≤ 0); and the strings 1, 1.0
and 1.0.0 pairwise compare equal (result 0). -/
theorem version_comparators_total_order :
    (∀ a : Str, Updater_compareVersions a a = 0 ∧ compareVersionSemantics a a = 0) ∧
    (∀ a b : Str,
      Updater_compareVersions a b = - Updater_compareVersions b a ∧
      compareVersionSemantics a b = - compareVersionSemantics b a) ∧
    (∀ a b c : Str,
      Updater_compareVersions a b ≤ 0 → Updater_compareVersions b c ≤ 0 →
        Updater_compareVersions a c ≤ 0) ∧
    (∀ a b c : Str,
      compareVersionSemantics a b ≤ 0 → compareVersionSemantics b c ≤ 0 →
        compareVersionSemantics a c ≤ 0) ∧
    (Updater_compareVersions (toL "1") (toL "1.0") = 0 ∧
      Updater_compareVersions (toL "1") (toL "1.0.0") = 0 ∧
      Updater_compareVersions (toL "1.0") (toL "1.0.0") = 0) ∧
    (compareVersionSemantics (toL "1") (toL "1.0") = 0 ∧
      compareVersionSemantics (toL "1") (toL "1.0.0") = 0 ∧
      compareVersionSemantics (toL "1.0") (toL "1.0.0") = 0) := by
  refine ⟨?_, ?_, ?_, ?_, ?_, ?_⟩
  · intro a
    constructor
    · rw [Updater_compareVersions, cmpLoop_eq_cmpInt]
      exact cmpInt_refl _
    · exact cmpInt_refl _
  · intro a b
    constructor
    · rw [Updater_compareVersions, Updater_compareVersions,
        cmpLoop_eq_cmpInt, cmpLoop_eq_cmpInt]
      exact cmpInt_antisym _ _
    · exact cmpInt_antisym _ _
  · intro a b c h1 h2
    rw [Updater_compareVersions, cmpLoop_eq_cmpInt] at h1 h2 ⊢
    exact cmpInt_le_trans _ _ _ h1 h2
  · intro a b c h1 h2
    exact cmpInt_le_trans _ _ _ h1 h2
  · exact ⟨by decide, by decide, by decide⟩
  · exact ⟨by decide, by decide, by decide⟩

/-- Witness for claim C4: the transitivity components applied at the
concrete versions 1, 1.5 and 2, with both hypotheses discharged by
evaluation. -/
theorem version_comparators_total_order_witness :
    Updater_compareVersions (toL "1") (toL "2") ≤ 0 ∧
      compareVersionSemantics (toL "1") (toL "2") ≤ 0 :=
  ⟨version_comparators_total_order.2.2.1 (toL "1") (toL "1.5") (toL "2")
      (by decide) (by decide),
    version_comparators_total_order.2.2.2.1 (toL "1") (toL "1.5") (toL "2")
      (by decide) (by decide)⟩

/-! ## Installed-database field lookups (claims C8 and C10)

Embeds Updater::getInstalledVersion, Updater::getInstalledUpdateDate and
Updater::updateDatabaseVersion (update.cpp) and
Installer::getInstalledPackageUpdateDate (chroot_util.cpp).  The
installed database file is modelled as its list of lines. -/

/-- Both-ends trim over space and tab, as done with find_first_not_of
and find_last_not_of in the source. -/
def trimWs (s : Str) : Str :=
  ((s.dropWhile fun c => c == ' ' || c == '\t').reverse.dropWhile
    fun c => c == ' ' || c == '\t').reverse

/-- Whitespace-separated tokens of a line, as produced by repeated
operator>> extraction from an istringstream. -/
def wsTokensAux : List Char → List Char → List Str
  | [], cur => if cur = [] then [] else [cur.reverse]
  | c :: rest, cur =>
    if isCppSpace c then
      if cur = [] then wsTokensAux rest []
      else cur.reverse :: wsTokensAux rest []
    else wsTokensAux rest (c :: cur)

/-- All whitespace-separated tokens of a line. -/
def wsTokens (s : Str) : List Str := wsTokensAux s []

/-- The second whitespace-separated token of a line, which is what
`iss >> label >> value` leaves in value; none when extraction fails. -/
def secondTok (s : Str) : Option Str := (wsTokens s).get? 1

/-- The scanning loop shared by Updater::getInstalledVersion and
Updater::getInstalledUpdateDate: before the section, any line having the
bare package name as a prefix opens the section; inside it, the first
field-prefixed line with a second token is returned, and the record
terminator ends the scan. -/
def uFieldLoop (field name : Str) : List Str → Bool → Str
  | [], _ => []
  | line :: rest, inSec =>
    if inSec = false then
      if name.isPrefixOf line then uFieldLoop field name rest true
      else uFieldLoop field name rest false
    else
      match (if field.isPrefixOf line then secondTok line else none) with
      | some v => v
      | none =>
        if line = dbTerminator then []
        else uFieldLoop field name rest true

/-- Updater::getInstalledVersion (update.cpp, lines 452-485). -/
def Updater_getInstalledVersion (packageName : Str) (db : List Str) : Str :=
  uFieldLoop (toL "Version:") packageName db false

/-- Updater::getInstalledUpdateDate (update.cpp, lines 487-520); note
the source accepts only the Update-time label here. -/
def Updater_getInstalledUpdateDate (packageName : Str) (db : List Str) : Str :=
  uFieldLoop (toL "Update-time:") packageName db false

/-- The scanning loop of Installer::getInstalledPackageUpdateDate
(chroot_util.cpp, lines 1387-1424), parameterized by the date parser
parseUpdateDate whose arithmetic is not claim-relevant.  The section
opens at a line having packageName followed by space-slash as a prefix;
inside it both Update-time and Build-date labels are accepted and the
trimmed remainder is parsed. -/
def iUpdLoop (parse : Str → Int) (searchHeader : Str) : List Str → Bool → Int
  | [], _ => 0
  | line :: rest, inSec =>
    if inSec = false then
      if searchHeader.isPrefixOf line then iUpdLoop parse searchHeader rest true
      else iUpdLoop parse searchHeader rest false
    else
      if (toL "Update-time:").isPrefixOf line then
        parse (trimWs (line.drop (toL "Update-time:").length))
      else if (toL "Build-date:").isPrefixOf line then
        parse (trimWs (line.drop (toL "Build-date:").length))
      else if line = dbTerminator then 0
      else iUpdLoop parse searchHeader rest true

/-- Installer::getInstalledPackageUpdateDate (chroot_util.cpp,
lines 1387-1424). -/
def Installer_getInstalledPackageUpdateDate
    (parse : Str → Int) (packageName : Str) (db : List Str) : Int :=
  iUpdLoop parse (packageName ++ toL " /") db false

/-! ### Two-phase characterization of the lookups (claim C8, amended) -/

/-- Lines strictly after the first line satisfying p; none when no line
does. -/
def afterFirstMatch (p : Str → Bool) : List Str → Option (List Str)
  | [] => none
  | l :: rest => if p l then some rest else afterFirstMatch p rest

/-- The lines of a record up to (excluding) the terminator. -/
def recordSpan (lines : List Str) : List Str :=
  lines.takeWhile fun l => !(l == dbTerminator)

/-- First value extractable from a field-prefixed line of a span. -/
def spanFieldValue (field : Str) (span : List Str) : Option Str :=
  span.findSome? fun l => if field.isPrefixOf l then secondTok l else none

/-- First update date extractable from a span, with both labels accepted
as in Installer::getInstalledPackageUpdateDate. -/
def spanUpdValue (parse : Str → Int) (span : List Str) : Option Int :=
  span.findSome? fun l =>
    if (toL "Update-time:").isPrefixOf l then
      some (parse (trimWs (l.drop (toL "Update-time:").length)))
    else if (toL "Build-date:").isPrefixOf l then
      some (parse (trimWs (l.drop (toL "Build-date:").length)))
    else none

theorem uFieldLoop_false_eq (field name : Str) (db : List Str) :
    uFieldLoop field name db false =
      match afterFirstMatch (fun l => name.isPrefixOf l) db with
      | none => []
      | some rest => uFieldLoop field name rest true := by
  induction db with
  | nil => rfl
  | cons line rest ih =>
    simp only [uFieldLoop, afterFirstMatch]
    by_cases h : name.isPrefixOf line
    · simp [h]
    · simp [h, ih]

theorem uFieldLoop_true_eq (field name : Str) (db : List Str)
    (hterm : field.isPrefixOf dbTerminator = false) :
    uFieldLoop field name db true = (spanFieldValue field (recordSpan db)).getD [] := by
  induction db with
  | nil => rfl
  | cons line rest ih =>
    by_cases hl : line = dbTerminator
    · subst hl
      simp [uFieldLoop, recordSpan, spanFieldValue, hterm]
    · by_cases hf : field <+: line
      · cases hst : secondTok line with
        | some v =>
          simp [uFieldLoop, recordSpan, spanFieldValue, List.findSome?_cons,
            List.isPrefixOf_iff_prefix, hf, hst, hl]
        | none =>
          simpa [uFieldLoop, recordSpan, spanFieldValue, List.findSome?_cons,
            List.isPrefixOf_iff_prefix, hf, hst, hl] using ih
      · simpa [uFieldLoop, recordSpan, spanFieldValue, List.findSome?_cons,
          List.isPrefixOf_iff_prefix, hf, hl] using ih

theorem iUpdLoop_false_eq (parse : Str → Int) (hdr : Str) (db : List Str) :
    iUpdLoop parse hdr db false =
      match afterFirstMatch (fun l => hdr.isPrefixOf l) db with
      | none => 0
      | some rest => iUpdLoop parse hdr rest true := by
  induction db with
  | nil => rfl
  | cons line rest ih =>
    simp only [iUpdLoop, afterFirstMatch]
    by_cases h : hdr.isPrefixOf line
    · simp [h]
    · simp [h, ih]

theorem iUpdLoop_true_eq (parse : Str → Int) (hdr : Str) (db : List Str) :
    iUpdLoop parse hdr db true = (spanUpdValue parse (recordSpan db)).getD 0 := by
  induction db with
  | nil => rfl
  | cons line rest ih =>
    by_cases hl : line = dbTerminator
    · subst hl
      have h1 : (toL "Update-time:").isPrefixOf dbTerminator = false := by decide
      have h2 : (toL "Build-date:").isPrefixOf dbTerminator = false := by decide
      simp [iUpdLoop, recordSpan, spanUpdValue, h1, h2]
    · by_cases h1 : toL "Update-time:" <+: line
      · simp [iUpdLoop, recordSpan, spanUpdValue, List.findSome?_cons,
          List.isPrefixOf_iff_prefix, h1, hl]
      · by_cases h2 : toL "Build-date:" <+: line
        · simp [iUpdLoop, recordSpan, spanUpdValue, List.findSome?_cons,
            List.isPrefixOf_iff_prefix, h1, h2, hl]
        · simpa [iUpdLoop, recordSpan, spanUpdValue, List.findSome?_cons,
            List.isPrefixOf_iff_prefix, h1, h2, hl] using ih

/-- Claim C8, amended: the three lookups locate the record by a prefix
match, not by an exact header line.  Updater::getInstalledVersion and
Updater::getInstalledUpdateDate open the record at the first line having
the bare package name as a prefix, scan only to that record's
terminator, and return the second whitespace token of the first line
carrying their one accepted label (Build-date is not accepted by the
Updater); Installer::getInstalledPackageUpdateDate opens the record at
the first line having name-space-slash as a prefix, accepts both
Update-time and Build-date, and parses the trimmed remainder.  When no
opening line exists the empty or zero result is returned. -/
theorem db_lookup_prefix_header_characterization :
    ∀ (db : List Str) (name : Str) (parse : Str → Int),
      Updater_getInstalledVersion name db =
        (match afterFirstMatch (fun l => name.isPrefixOf l) db with
          | none => []
          | some rest => (spanFieldValue (toL "Version:") (recordSpan rest)).getD []) ∧
      Updater_getInstalledUpdateDate name db =
        (match afterFirstMatch (fun l => name.isPrefixOf l) db with
          | none => []
          | some rest => (spanFieldValue (toL "Update-time:") (recordSpan rest)).getD []) ∧
      Installer_getInstalledPackageUpdateDate parse name db =
        (match afterFirstMatch (fun l => (name ++ toL " /").isPrefixOf l) db with
          | none => 0
          | some rest => (spanUpdValue parse (recordSpan rest)).getD 0) := by
  intro db name parse
  refine ⟨?_, ?_, ?_⟩
  · rw [Updater_getInstalledVersion, uFieldLoop_false_eq]
    cases afterFirstMatch (fun l => name.isPrefixOf l) db with
    | none => rfl
    | some rest => exact uFieldLoop_true_eq _ _ _ (by decide)
  · rw [Updater_getInstalledUpdateDate, uFieldLoop_false_eq]
    cases afterFirstMatch (fun l => name.isPrefixOf l) db with
    | none => rfl
    | some rest => exact uFieldLoop_true_eq _ _ _ (by decide)
  · rw [Installer_getInstalledPackageUpdateDate, iUpdLoop_false_eq]
    cases afterFirstMatch (fun l => (name ++ toL " /").isPrefixOf l) db with
    | none => rfl
    | some rest => exact iUpdLoop_true_eq _ _ _

/-- Counterexample to claim C8 as stated: the lookups do not locate the
record whose header line is exactly name-space-slash.  First conjunct:
with a record for foobar ahead of the record for foo, getInstalledVersion
of foo returns the version of foobar because the header test is only a
prefix match on the bare name.  Second conjunct: a record for foo whose
date field uses the Build-date label yields the empty string from
Updater::getInstalledUpdateDate, although the claim says both labels are
accepted. -/
theorem db_lookup_counterexample :
    Updater_getInstalledVersion (toL "foo")
        [toL "foobar /", toL "Version: 2.0", dbTerminator,
         toL "foo /", toL "Version: 1.0", dbTerminator] = toL "2.0" ∧
    Updater_getInstalledUpdateDate (toL "foo")
        [toL "foo /", toL "Build-date: 01/02/2023", dbTerminator] = [] := by
  constructor
  · decide
  · decide

/-! ### Updater::updateDatabaseVersion (claim C10) -/

/-- The copy loop of Updater::updateDatabaseVersion (update.cpp,
lines 526-582): outside a target span, a line with the package name as a
prefix opens one and is copied unchanged; inside a span, Version and
Update-time prefixed lines are replaced with label-space-value and the
corresponding flag is set, every other line is copied, and the
terminator line closes the span.  Returns the rewritten lines together
with the versionUpdated and dateUpdated flags. -/
def udvLoop (name newV newT : Str) :
    List Str → Bool → Bool → Bool → (List Str × Bool × Bool)
  | [], _, vU, dU => ([], vU, dU)
  | line :: rest, inTgt, vU, dU =>
    if inTgt = false then
      if name.isPrefixOf line then
        let r := udvLoop name newV newT rest true vU dU
        (line :: r.1, r.2)
      else
        let r := udvLoop name newV newT rest false vU dU
        (line :: r.1, r.2)
    else
      if (toL "Version:").isPrefixOf line then
        let r := udvLoop name newV newT rest (!(line == dbTerminator)) true dU
        ((toL "Version: " ++ newV) :: r.1, r.2)
      else if (toL "Update-time:").isPrefixOf line then
        let r := udvLoop name newV newT rest (!(line == dbTerminator)) vU true
        ((toL "Update-time: " ++ newT) :: r.1, r.2)
      else
        let r := udvLoop name newV newT rest (!(line == dbTerminator)) vU dU
        (line :: r.1, r.2)

/-- Updater::updateDatabaseVersion (update.cpp, lines 526-582): the file
is rewritten only when both flags were set; otherwise a warning is
printed and the file is left unchanged. -/
def Updater_updateDatabaseVersion (name : Str) (db : List Str) (newV newT : Str) :
    List Str :=
  let r := udvLoop name newV newT db false false false
  if r.2.1 && r.2.2 then r.1 else db

/-- Marks each database line with whether the copy loop examines it
inside a target span: spans are opened by a line having the package name
as a prefix (that opening line itself is not field-examined) and closed
by the terminator line. -/
def spanMark (name : Str) : List Str → Bool → List (Str × Bool)
  | [], _ => []
  | l :: ls, inTgt =>
    if inTgt = false then (l, false) :: spanMark name ls (name.isPrefixOf l)
    else (l, true) :: spanMark name ls (!(l == dbTerminator))

/-- A Version-prefixed line occurs inside some span of the package. -/
def udvVersionFound (name : Str) (db : List Str) : Bool :=
  (spanMark name db false).any fun p => p.2 && (toL "Version:").isPrefixOf p.1

/-- An Update-time-prefixed line occurs inside some span of the package. -/
def udvDateFound (name : Str) (db : List Str) : Bool :=
  (spanMark name db false).any fun p => p.2 && (toL "Update-time:").isPrefixOf p.1

/-- The unconditional line rewrite applied by the copy loop. -/
def udvRewrite (name newV newT : Str) (db : List Str) : List Str :=
  (spanMark name db false).map fun p =>
    if p.2 && (toL "Version:").isPrefixOf p.1 then toL "Version: " ++ newV
    else if p.2 && (toL "Update-time:").isPrefixOf p.1 then toL "Update-time: " ++ newT
    else p.1

theorem version_updtime_prefix_disjoint (l : Str)
    (h1 : (toL "Version:").isPrefixOf l = true) :
    (toL "Update-time:").isPrefixOf l = false := by
  by_contra h2
  rw [Bool.not_eq_false] at h2
  rw [List.isPrefixOf_iff_prefix] at h1 h2
  have e1 : toL "Version:" = 'V' :: toL "ersion:" := rfl
  have e2 : toL "Update-time:" = 'U' :: toL "pdate-time:" := rfl
  rw [e1] at h1
  rw [e2] at h2
  rcases h1 with ⟨t1, e3⟩
  rcases h2 with ⟨t2, e4⟩
  rw [List.cons_append] at e3 e4
  rw [← e3] at e4
  injection e4 with h5 _
  exact absurd h5 (by decide)

theorem udvLoop_eq_spanMark (name newV newT : Str) :
    ∀ (db : List Str) (inTgt vU dU : Bool),
      udvLoop name newV newT db inTgt vU dU =
        ((spanMark name db inTgt).map (fun p =>
            if p.2 && (toL "Version:").isPrefixOf p.1 then toL "Version: " ++ newV
            else if p.2 && (toL "Update-time:").isPrefixOf p.1 then toL "Update-time: " ++ newT
            else p.1),
          vU || (spanMark name db inTgt).any (fun p => p.2 && (toL "Version:").isPrefixOf p.1),
          dU || (spanMark name db inTgt).any (fun p => p.2 && (toL "Update-time:").isPrefixOf p.1)) := by
  intro db
  induction db with
  | nil => intro inTgt vU dU; simp [udvLoop, spanMark]
  | cons line rest ih =>
    intro inTgt vU dU
    cases inTgt with
    | false =>
      by_cases h : name.isPrefixOf line
      · simp [udvLoop, spanMark, h, ih]
      · simp [udvLoop, spanMark, h, ih]
    | true =>
      by_cases h1 : (toL "Version:").isPrefixOf line
      · have hd := version_updtime_prefix_disjoint line h1
        have h1p : toL "Version:" <+: line := List.isPrefixOf_iff_prefix.mp h1
        have hdp : ¬ toL "Update-time:" <+: line := by
          rw [← List.isPrefixOf_iff_prefix, hd]
          exact Bool.false_ne_true
        simp [udvLoop, spanMark, List.isPrefixOf_iff_prefix, h1, hd, h1p, hdp, ih,
          Bool.or_assoc, Bool.or_comm, Bool.or_left_comm]
      · by_cases h2 : (toL "Update-time:").isPrefixOf line
        · have h1p : ¬ toL "Version:" <+: line := by
            rw [← List.isPrefixOf_iff_prefix]
            simpa using h1
          have h2p : toL "Update-time:" <+: line := List.isPrefixOf_iff_prefix.mp h2
          simp [udvLoop, spanMark, List.isPrefixOf_iff_prefix, h1, h2, h1p, h2p, ih,
            Bool.or_assoc, Bool.or_comm, Bool.or_left_comm]
        · have h1p : ¬ toL "Version:" <+: line := by
            rw [← List.isPrefixOf_iff_prefix]
            simpa using h1
          have h2p : ¬ toL "Update-time:" <+: line := by
            rw [← List.isPrefixOf_iff_prefix]
            simpa using h2
          simp [udvLoop, spanMark, List.isPrefixOf_iff_prefix, h1, h2, h1p, h2p, ih]

/-- Claim C10, amended: updateDatabaseVersion rewrites the database
exactly when a Version-prefixed line and an Update-time-prefixed line
are both found inside spans opened by lines having the package name as
a prefix (any such line, not only the exact record header, and the two
field lines may lie in different spans); otherwise a warning is emitted
and the database is byte-for-byte unchanged. -/
theorem updateDatabaseVersion_characterization (name newV newT : Str) (db : List Str) :
    Updater_updateDatabaseVersion name db newV newT =
      if udvVersionFound name db && udvDateFound name db
      then udvRewrite name newV newT db
      else db := by
  rw [Updater_updateDatabaseVersion, udvLoop_eq_spanMark,
    udvVersionFound, udvDateFound, udvRewrite]
  simp only [Bool.false_or]

/-- Counterexample to claim C10 as stated: the database holds no record
named foo (no line equals the exact header foo-space-slash), yet the
file is rewritten rather than left unchanged, because the record of
foobar opens a span through the bare prefix match and supplies both
field lines. -/
theorem updateDatabaseVersion_counterexample :
    Updater_updateDatabaseVersion (toL "foo")
        [toL "foobar /", toL "Version: 1", toL "Update-time: t", dbTerminator]
        (toL "2") (toL "u") =
      [toL "foobar /", toL "Version: 2", toL "Update-time: u", dbTerminator] ∧
    ([toL "foobar /", toL "Version: 1", toL "Update-time: t", dbTerminator].all
      fun l => !(l == toL "foo /")) = true := by
  constructor
  · decide
  · decide

/-! ## Hook glob matching (claim C9)

Embeds matchWildcard (main.cpp, lines 551-609). -/

/-- Index of the first star in a pattern, as pattern.find of the
source; none plays the role of npos. -/
def findStar : Str → Option Nat
  | [] => none
  | c :: cs => if c = '*' then some 0 else (findStar cs).map (· + 1)

/-- Index of the last star in a pattern, as pattern.rfind of the
source. -/
def rfindStar : Str → Option Nat
  | [] => none
  | c :: cs =>
    match rfindStar cs with
    | some i => some (i + 1)
    | none => if c = '*' then some 0 else none

/-- matchWildcard (main.cpp, lines 551-609): the literal case analysis
of the source on the first and last star positions.  The lastStar
variable is only read on branches where a star exists, so the getD
default is irrelevant. -/
def matchWildcard (pattern str : Str) : Bool :=
  if pattern = toL "*" then true
  else
    match findStar pattern with
    | none => pattern == str
    | some firstStar =>
      let lastStar := (rfindStar pattern).getD 0
      if firstStar = 0 ∧ lastStar = pattern.length - 1 ∧ 1 < pattern.length then
        decide ((pattern.drop 1).dropLast <:+: str)
      else if firstStar = 0 ∧ lastStar = 0 ∧ 1 < pattern.length then
        let sfx := pattern.drop 1
        if str.length < sfx.length then false else sfx.isSuffixOf str
      else if firstStar = pattern.length - 1 ∧ lastStar = pattern.length - 1 ∧
          1 < pattern.length then
        let pfx := pattern.dropLast
        if str.length < pfx.length then false else pfx.isPrefixOf str
      else pattern == str

/-- The claim's glob table, read by its rows in the order stated: a
pattern of shape star-X-star means containment of X, a pattern starting
with a star means suffix X, a pattern ending with a star means prefix X,
and any other pattern matches only the identical string. -/
def globTable (p s : Str) : Bool :=
  if p = toL "*" then true
  else if p.head? = some '*' ∧ p.getLast? = some '*' ∧ 1 < p.length then
    decide ((p.drop 1).dropLast <:+: s)
  else if p.head? = some '*' then (p.drop 1).isSuffixOf s
  else if p.getLast? = some '*' then p.dropLast.isPrefixOf s
  else p == s

/-- The amended glob table: the star-X-star row applies to any pattern
that starts and ends with a star (its inner text may itself contain
stars); the star-X and X-star rows apply only when the single star of
the pattern sits at the very front or the very end; every other pattern
is warned about and treated as a literal. -/
def globAmended (p s : Str) : Bool :=
  if p = toL "*" then true
  else if p.head? = some '*' then
    if p.tail.getLast? = some '*' then decide (p.tail.dropLast <:+: s)
    else if '*' ∈ p.tail then p == s
    else p.tail.isSuffixOf s
  else if p.getLast? = some '*' then
    if '*' ∈ p.dropLast then p == s
    else p.dropLast.isPrefixOf s
  else p == s

theorem rfindStar_cons (c : Char) (cs : Str) :
    rfindStar (c :: cs) =
      match rfindStar cs with
      | some i => some (i + 1)
      | none => if c = '*' then some 0 else none := rfl

theorem rfindStar_isSome_iff (p : Str) : (rfindStar p).isSome = true ↔ '*' ∈ p := by
  induction p with
  | nil => simp [rfindStar]
  | cons c cs ih =>
    rw [rfindStar_cons]
    cases h : rfindStar cs with
    | some i =>
      have : '*' ∈ cs := ih.mp (by simp [h])
      simp [this]
    | none =>
      have hn : '*' ∉ cs := by
        intro hm
        have hs := ih.mpr hm
        rw [h] at hs
        simp at hs
      by_cases hc : c = '*'
      · simp [hc]
      · simp [hc, hn, Ne.symm hc]

theorem rfindStar_eq_none_iff (p : Str) : rfindStar p = none ↔ '*' ∉ p := by
  rw [← rfindStar_isSome_iff]
  cases rfindStar p <;> simp

theorem findStar_eq_none_iff (p : Str) : findStar p = none ↔ '*' ∉ p := by
  induction p with
  | nil => simp [findStar]
  | cons c cs ih =>
    simp only [findStar]
    by_cases hc : c = '*'
    · simp [hc]
    · cases h : findStar cs with
      | some i =>
        have : '*' ∈ cs := by
          by_contra hm
          simp [ih.mpr hm] at h
        simp [hc, Ne.symm hc, this]
      | none => simp [hc, Ne.symm hc, ih.mp h]

theorem rfindStar_zero_iff (c : Char) (cs : Str) :
    rfindStar (c :: cs) = some 0 ↔ (c = '*' ∧ '*' ∉ cs) := by
  rw [rfindStar_cons]
  cases h : rfindStar cs with
  | some i =>
    have : '*' ∈ cs := (rfindStar_isSome_iff cs).mp (by simp [h])
    simp [this]
  | none =>
    have hn : '*' ∉ cs := (rfindStar_eq_none_iff cs).mp h
    by_cases hc : c = '*'
    · simp [hc, hn]
    · simp [hc, hn]

theorem findStar_cons (c : Char) (cs : Str) :
    findStar (c :: cs) = if c = '*' then some 0 else (findStar cs).map (· + 1) := rfl

theorem rfindStar_cons_some (c : Char) (cs : Str) (i : Nat) (h : rfindStar cs = some i) :
    rfindStar (c :: cs) = some (i + 1) := by
  rw [rfindStar_cons, h]

theorem rfindStar_cons_none (c : Char) (cs : Str) (h : rfindStar cs = none) :
    rfindStar (c :: cs) = if c = '*' then some 0 else none := by
  rw [rfindStar_cons, h]

theorem rfindStar_last_iff (p : Str) (hne : p ≠ []) :
    rfindStar p = some (p.length - 1) ↔ p.getLast? = some '*' := by
  induction p with
  | nil => exact absurd rfl hne
  | cons c cs ih =>
    cases cs with
    | nil =>
      rw [rfindStar_cons_none c [] rfl]
      simp only [List.length_cons, List.length_nil, List.getLast?_singleton]
      by_cases hc : c = '*'
      · simp [hc]
      · simp [hc, Ne.symm hc]
    | cons d ds =>
      have ihx := ih (by simp)
      rw [List.getLast?_cons_cons]
      simp only [List.length_cons] at ihx ⊢
      cases h : rfindStar (d :: ds) with
      | some i =>
        rw [h] at ihx
        rw [rfindStar_cons_some c _ i h]
        constructor
        · intro he
          have hij := Option.some.inj he
          have hi : i = ds.length := by omega
          exact ihx.mp (by simp [hi])
        · intro hl
          have := Option.some.inj (ihx.mpr hl)
          simp only [Option.some.injEq]
          omega
      | none =>
        have hn : ('*' ∈ (d :: ds)) → False := fun hm => by
          have hs := (rfindStar_isSome_iff (d :: ds)).mpr hm
          rw [h] at hs
          simp at hs
        rw [rfindStar_cons_none c _ h]
        constructor
        · intro he
          by_cases hc : c = '*'
          · rw [if_pos hc] at he
            have := Option.some.inj he
            omega
          · rw [if_neg hc] at he
            exact absurd he (by simp)
        · intro hl
          exact absurd (List.mem_of_mem_getLast? hl) hn

theorem star_single_last_iff (p : Str) (hne : p ≠ []) :
    (findStar p = some (p.length - 1) ∧ rfindStar p = some (p.length - 1)) ↔
      (p.getLast? = some '*' ∧ '*' ∉ p.dropLast) := by
  induction p with
  | nil => exact absurd rfl hne
  | cons c cs ih =>
    cases cs with
    | nil =>
      rw [rfindStar_cons_none c [] rfl, findStar_cons]
      simp only [findStar, List.length_cons, List.length_nil,
        List.getLast?_singleton, List.dropLast_single]
      by_cases hc : c = '*'
      · simp [hc]
      · simp [hc, Ne.symm hc]
    | cons d ds =>
      have ihx := ih (by simp)
      rw [List.getLast?_cons_cons, List.dropLast_cons₂]
      simp only [List.length_cons] at ihx ⊢
      by_cases hc : c = '*'
      · rw [findStar_cons, if_pos hc]
        constructor
        · rintro ⟨h1, _⟩
          exact absurd (Option.some.inj h1) (by omega)
        · rintro ⟨_, h2⟩
          exact absurd (List.mem_cons_self '*' _) (hc ▸ h2)
      · rw [findStar_cons, if_neg hc]
        cases h : rfindStar (d :: ds) with
        | some i =>
          rw [h] at ihx
          rw [rfindStar_cons_some c _ i h]
          cases hf : findStar (d :: ds) with
          | some j =>
            rw [hf] at ihx
            simp only [Option.map_some', Option.some.injEq, List.mem_cons, not_or]
            constructor
            · rintro ⟨h1, h2⟩
              have hj : j = ds.length := by omega
              have hi : i = ds.length := by omega
              have hg := ihx.mp ⟨by simp [hj], by simp [hi]⟩
              exact ⟨hg.1, Ne.symm hc, hg.2⟩
            · rintro ⟨h1, hcs, h2⟩
              have hg := ihx.mpr ⟨h1, h2⟩
              have hj := Option.some.inj hg.1
              have hi := Option.some.inj hg.2
              omega
          | none =>
            rw [hf] at ihx
            simp only [Option.map_none', List.mem_cons, not_or]
            constructor
            · rintro ⟨h1, _⟩
              exact absurd h1 (by simp)
            · rintro ⟨h1, _, h2⟩
              have := ihx.mpr ⟨h1, h2⟩
              simp at this
        | none =>
          have hn : ('*' ∈ (d :: ds)) → False := fun hm => by
            have hs := (rfindStar_isSome_iff (d :: ds)).mpr hm
            rw [h] at hs
            simp at hs
          rw [rfindStar_cons_none c _ h, if_neg hc]
          constructor
          · rintro ⟨_, h2⟩
            exact absurd h2 (by simp)
          · rintro ⟨h1, _⟩
            exact absurd (List.mem_of_mem_getLast? h1) hn

theorem isSuffixOf_length_guard (l s : Str) :
    (if s.length < l.length then false else l.isSuffixOf s) = l.isSuffixOf s := by
  by_cases h : s.length < l.length
  · rw [if_pos h]
    cases hs : l.isSuffixOf s
    · rfl
    · exact absurd (List.isSuffixOf_iff_suffix.mp hs).length_le (by omega)
  · rw [if_neg h]

theorem isPrefixOf_length_guard (l s : Str) :
    (if s.length < l.length then false else l.isPrefixOf s) = l.isPrefixOf s := by
  by_cases h : s.length < l.length
  · rw [if_pos h]
    cases hs : l.isPrefixOf s
    · rfl
    · exact absurd (List.isPrefixOf_iff_prefix.mp hs).length_le (by omega)
  · rw [if_neg h]

theorem rfindStar_lt (p : Str) (i : Nat) (h : rfindStar p = some i) : i < p.length := by
  induction p generalizing i with
  | nil => simp [rfindStar] at h
  | cons d ds ih =>
    rw [rfindStar_cons] at h
    cases h2 : rfindStar ds with
    | some k =>
      rw [h2] at h
      have hik := Option.some.inj h
      have := ih k h2
      simp only [List.length_cons]
      omega
    | none =>
      rw [h2] at h
      by_cases hd : d = '*'
      · rw [if_pos hd] at h
        have := Option.some.inj h
        simp only [List.length_cons]
        omega
      · rw [if_neg hd] at h
        exact absurd h (by simp)

/-- Claim C9, amended: matchWildcard agrees everywhere with the amended
glob table, in which the star-X-star row covers every pattern that both
starts and ends with a star (X itself may contain stars), the star-X and
X-star rows cover only patterns whose single star sits at the very front
or very end, and every other pattern - in particular one with an
interior star - is warned about and matched as a literal. -/
theorem matchWildcard_eq_globAmended (p s : Str) :
    matchWildcard p s = globAmended p s := by
  by_cases hstar : p = toL "*"
  · simp [matchWildcard, globAmended, hstar]
  · cases p with
    | nil => simp [matchWildcard, globAmended, hstar, findStar]
    | cons c rest =>
      by_cases hc : c = '*'
      · subst hc
        have hrne : rest ≠ [] := by
          intro h
          exact hstar (by rw [h]; rfl)
        have hrlen : 1 ≤ rest.length := by
          cases rest with
          | nil => exact absurd rfl hrne
          | cons a l => simp
        have hfp : findStar ('*' :: rest) = some 0 := by
          rw [findStar_cons, if_pos rfl]
        have hhead : ('*' :: rest).head? = some '*' := rfl
        cases hr : rfindStar rest with
        | some i =>
          have hrp := rfindStar_cons_some '*' rest i hr
          by_cases hlast : rest.getLast? = some '*'
          · have hi3 : some i = some (rest.length - 1) := by
              rw [← hr]
              exact (rfindStar_last_iff rest hrne).mpr hlast
            have hi2 : i = rest.length - 1 := Option.some.inj hi3
            have hL : matchWildcard ('*' :: rest) s =
                decide (rest.dropLast <:+: s) := by
              simp only [matchWildcard, if_neg hstar, hfp, hrp, Option.getD_some]
              rw [if_pos (show True ∧ i + 1 = ('*' :: rest).length - 1 ∧
                  1 < ('*' :: rest).length from
                ⟨trivial, by simp only [List.length_cons]; omega,
                  by simp only [List.length_cons]; omega⟩)]
              simp only [List.drop_one, List.tail_cons]
            have hR : globAmended ('*' :: rest) s =
                decide (rest.dropLast <:+: s) := by
              simp only [globAmended, if_neg hstar, hhead, if_true,
                List.tail_cons, if_pos hlast]
            rw [hL, hR]
          · have hi2 : i ≠ rest.length - 1 := by
              intro he
              exact hlast ((rfindStar_last_iff rest hrne).mp (by rw [hr, he]))
            have hmem : '*' ∈ rest := (rfindStar_isSome_iff rest).mp (by rw [hr]; rfl)
            have hL : matchWildcard ('*' :: rest) s = (('*' :: rest) == s) := by
              simp only [matchWildcard, if_neg hstar, hfp, hrp, Option.getD_some]
              rw [if_neg (show ¬ (True ∧ i + 1 = ('*' :: rest).length - 1 ∧
                    1 < ('*' :: rest).length) from by
                  rintro ⟨-, hx, hy⟩
                  simp only [List.length_cons] at hx hy
                  omega),
                if_neg (show ¬ (True ∧ i + 1 = 0 ∧ 1 < ('*' :: rest).length) from by
                  rintro ⟨-, hx, -⟩
                  omega),
                if_neg (show ¬ (0 = ('*' :: rest).length - 1 ∧
                    i + 1 = ('*' :: rest).length - 1 ∧ 1 < ('*' :: rest).length) from by
                  rintro ⟨hx, -, -⟩
                  simp only [List.length_cons] at hx
                  omega)]
            have hR : globAmended ('*' :: rest) s = (('*' :: rest) == s) := by
              simp only [globAmended, if_neg hstar, hhead, if_true,
                List.tail_cons, if_neg hlast, if_pos hmem]
            rw [hL, hR]
        | none =>
          have hnm : '*' ∉ rest := by
            intro hm
            have hs := (rfindStar_isSome_iff rest).mpr hm
            rw [hr] at hs
            simp at hs
          have hrp : rfindStar ('*' :: rest) = some 0 := by
            rw [rfindStar_cons_none '*' rest hr, if_pos rfl]
          have hlast : ¬ rest.getLast? = some '*' := by
            intro hl
            exact hnm (List.mem_of_mem_getLast? hl)
          have hL : matchWildcard ('*' :: rest) s = rest.isSuffixOf s := by
            simp only [matchWildcard, if_neg hstar, hfp, hrp, Option.getD_some]
            rw [if_neg (show ¬ (True ∧ 0 = ('*' :: rest).length - 1 ∧
                  1 < ('*' :: rest).length) from by
                rintro ⟨-, hx, hy⟩
                simp only [List.length_cons] at hx hy
                omega),
              if_pos (show True ∧ True ∧ 1 < ('*' :: rest).length from
                ⟨trivial, trivial, by simp only [List.length_cons]; omega⟩)]
            show (if s.length < (('*' :: rest).drop 1).length then false
              else (('*' :: rest).drop 1).isSuffixOf s) = rest.isSuffixOf s
            rw [show ('*' :: rest).drop 1 = rest from rfl]
            exact isSuffixOf_length_guard rest s
          have hR : globAmended ('*' :: rest) s = rest.isSuffixOf s := by
            simp only [globAmended, if_neg hstar, hhead, if_true,
              List.tail_cons, if_neg hlast, if_neg hnm]
          rw [hL, hR]
      · -- leading character is not a star
        have hhead : ¬ ((c :: rest).head? = some '*') := by
          simp only [List.head?_cons, Option.some.injEq]
          exact hc
        cases hf : findStar rest with
        | none =>
          have hnm : '*' ∉ rest := (findStar_eq_none_iff rest).mp hf
          have hfp : findStar (c :: rest) = none := by
            rw [findStar_cons, if_neg hc, hf]
            rfl
          have hnp : '*' ∉ (c :: rest) := by
            simp only [List.mem_cons, not_or]
            exact ⟨fun h => hc h.symm, hnm⟩
          have hlastn : ¬ ((c :: rest).getLast? = some '*') := fun hl =>
            hnp (List.mem_of_mem_getLast? hl)
          have hL : matchWildcard (c :: rest) s = ((c :: rest) == s) := by
            simp only [matchWildcard, if_neg hstar, hfp]
          have hR : globAmended (c :: rest) s = ((c :: rest) == s) := by
            simp only [globAmended, if_neg hstar, if_neg hhead, if_neg hlastn]
          rw [hL, hR]
        | some j =>
          have hmem : '*' ∈ rest := by
            by_contra hm
            rw [(findStar_eq_none_iff rest).mpr hm] at hf
            cases hf
          have hrne : rest ≠ [] := by
            rintro rfl
            simp at hmem
          have hrlen : 1 ≤ rest.length := by
            cases rest with
            | nil => exact absurd rfl hrne
            | cons a l => simp
          obtain ⟨i, hr⟩ : ∃ i, rfindStar rest = some i := by
            have hs := (rfindStar_isSome_iff rest).mpr hmem
            cases hx : rfindStar rest with
            | none => rw [hx] at hs; simp at hs
            | some k => exact ⟨k, rfl⟩
          have hfp : findStar (c :: rest) = some (j + 1) := by
            rw [findStar_cons, if_neg hc, hf]
            rfl
          have hrp := rfindStar_cons_some c rest i hr
          by_cases hg : (c :: rest).getLast? = some '*' ∧ '*' ∉ (c :: rest).dropLast
          · have hsngl := (star_single_last_iff (c :: rest) (by simp)).mpr hg
            have hj : j + 1 = (c :: rest).length - 1 := by
              have hx := hsngl.1
              rw [hfp] at hx
              exact Option.some.inj hx
            have hi : i + 1 = (c :: rest).length - 1 := by
              have hx := hsngl.2
              rw [hrp] at hx
              exact Option.some.inj hx
            have hL : matchWildcard (c :: rest) s =
                (c :: rest).dropLast.isPrefixOf s := by
              simp only [matchWildcard, if_neg hstar, hfp, hrp, Option.getD_some]
              rw [if_neg (show ¬ (j + 1 = 0 ∧ i + 1 = (c :: rest).length - 1 ∧
                    1 < (c :: rest).length) from by
                  rintro ⟨hx, -, -⟩
                  omega),
                if_neg (show ¬ (j + 1 = 0 ∧ i + 1 = 0 ∧ 1 < (c :: rest).length) from by
                  rintro ⟨hx, -, -⟩
                  omega),
                if_pos (show j + 1 = (c :: rest).length - 1 ∧
                    i + 1 = (c :: rest).length - 1 ∧ 1 < (c :: rest).length from
                  ⟨hj, hi, by simp only [List.length_cons]; omega⟩)]
              exact isPrefixOf_length_guard _ s
            have hR : globAmended (c :: rest) s =
                (c :: rest).dropLast.isPrefixOf s := by
              simp only [globAmended, if_neg hstar, if_neg hhead, if_pos hg.1,
                if_neg hg.2]
            rw [hL, hR]
          · have hc3 : ¬ (j + 1 = (c :: rest).length - 1 ∧
                i + 1 = (c :: rest).length - 1 ∧ 1 < (c :: rest).length) := by
              rintro ⟨h1, h2, -⟩
              exact hg ((star_single_last_iff (c :: rest) (by simp)).mp
                ⟨by rw [hfp, h1], by rw [hrp, h2]⟩)
            have hL : matchWildcard (c :: rest) s = ((c :: rest) == s) := by
              simp only [matchWildcard, if_neg hstar, hfp, hrp, Option.getD_some]
              rw [if_neg (show ¬ (j + 1 = 0 ∧ i + 1 = (c :: rest).length - 1 ∧
                    1 < (c :: rest).length) from by
                  rintro ⟨hx, -, -⟩
                  omega),
                if_neg (show ¬ (j + 1 = 0 ∧ i + 1 = 0 ∧ 1 < (c :: rest).length) from by
                  rintro ⟨hx, -, -⟩
                  omega),
                if_neg hc3]
            have hR : globAmended (c :: rest) s = ((c :: rest) == s) := by
              by_cases hlast2 : (c :: rest).getLast? = some '*'
              · have hmemd : '*' ∈ (c :: rest).dropLast := by
                  by_contra hx
                  exact hg ⟨hlast2, hx⟩
                simp only [globAmended, if_neg hstar, if_neg hhead, if_pos hlast2,
                  if_pos hmemd]
              · simp only [globAmended, if_neg hstar, if_neg hhead, if_neg hlast2]
            rw [hL, hR]

/-- Counterexample to claim C9 as stated.  First conjunct: for the
pattern star-a-star-b and the string za-star-b, the claim's table (row
star-X) says the string matches because it ends with a-star-b, but
matchWildcard treats the pattern as a warned literal and returns false.
Second conjunct: the pattern star-a-star-b-star contains an interior
star, so it fits no restricted-glob row with star-free X and would have
to be treated as a literal, yet matchWildcard returns true on a string
that is not identical to it (substring match on the inner text). -/
theorem matchWildcard_counterexample :
    (matchWildcard (toL "*a*b") (toL "za*b") = false ∧
      globTable (toL "*a*b") (toL "za*b") = true ∧
      (toL "a*b").isSuffixOf (toL "za*b") = true) ∧
    (matchWildcard (toL "*a*b*") (toL "xa*by") = true ∧
      toL "*a*b*" ≠ toL "xa*by") := by
  constructor
  · exact ⟨by decide, by decide, by decide⟩
  · exact ⟨by decide, by decide⟩

/-! ## Hook execution (claim C5)

Embeds newStyleHookMatches and the execution stage of
Hook::runNewStyleHooks (main.cpp, lines 701-997).  Discovery and parsing
of hook files are filesystem input; the model therefore takes the list
of parsed candidate hooks as a parameter, together with the chroot
decision, the presence of bin/sh in the chroot, and an oracle giving
each command's success.  The model returns the value the function
returns together with the list of commands actually executed. -/

/-- A parsed new-style hook as used by the execution stage. -/
structure NewStyleUniversalHook where
  sourceFilePath : Str
  phase : Str
  ops : List Str
  paths : List Str
  negations : List Str
  command : Str
  needsPaths : Bool
  deriving DecidableEq

/-- Lexicographic less-or-equal on strings, the order by which matched
hooks are sorted on sourceFilePath. -/
def strLe (a b : Str) : Prop := ¬ List.Lex (· < ·) b a

instance strLe_decidable : DecidableRel strLe := fun _ _ => Not.decidable

/-- newStyleHookMatches (main.cpp, lines 614-680): operation filter,
positive path patterns, then negation patterns. -/
def newStyleHookMatches (hook : NewStyleUniversalHook) (operation : Str)
    (affectedPaths : List Str) : Bool :=
  if !hook.ops.isEmpty && !(hook.ops.contains operation) then false
  else if !hook.paths.isEmpty &&
      !(hook.paths.any fun pat => affectedPaths.any fun p => matchWildcard pat p) then
    false
  else if !hook.negations.isEmpty &&
      (hook.negations.any fun np => affectedPaths.any fun p => matchWildcard np p) then
    false
  else true

/-- The execution loop of Hook::runNewStyleHooks: an empty command is
skipped with a warning (but the loop continues), a missing bin/sh in
chroot mode or a failed command returns 0 immediately, and when the loop
finishes the function returns matchingHooks.size().  The second
component collects the commands actually handed to the shell. -/
def runHooksLoop (useChroot binShExists : Bool) (execOk : Str → Bool) (total : Nat) :
    List NewStyleUniversalHook → List Str → (Nat × List Str)
  | [], executedCmds => (total, executedCmds)
  | hook :: hs, executedCmds =>
    if hook.command = [] then
      runHooksLoop useChroot binShExists execOk total hs executedCmds
    else if useChroot then
      if binShExists = false then (0, executedCmds)
      else if execOk hook.command then
        runHooksLoop useChroot binShExists execOk total hs (executedCmds ++ [hook.command])
      else (0, executedCmds ++ [hook.command])
    else
      if execOk hook.command then
        runHooksLoop useChroot binShExists execOk total hs (executedCmds ++ [hook.command])
      else (0, executedCmds ++ [hook.command])

/-- Hook::runNewStyleHooks (main.cpp, lines 701-997), from the point
where candidate hooks have been parsed: filter by phase and match,
return 0 when nothing matched, sort by sourceFilePath, then run the
execution loop. -/
def Hook_runNewStyleHooks (phase operation : Str) (affectedPaths : List Str)
    (candidates : List NewStyleUniversalHook) (useChroot binShExists : Bool)
    (execOk : Str → Bool) : Nat × List Str :=
  let matching := candidates.filter fun h =>
    h.phase == phase && newStyleHookMatches h operation affectedPaths
  if matching.isEmpty then (0, [])
  else
    let sorted := List.insertionSort
      (fun a b => strLe a.sourceFilePath b.sourceFilePath) matching
    runHooksLoop useChroot binShExists execOk sorted.length sorted []

/-- Claim C5 is a code bug: the source's doc comment and the spec say
the function returns the number of hooks actually executed, but the
success path returns matchingHooks.size() (the matched count - the
executed_count variable is incremented yet never returned) and the
failure path returns 0.  First conjunct: one matched hook with an empty
Command executes nothing, yet the function returns 1.  Second conjunct:
the single matched hook's command fails, so one hook was executed up to
and including the failure, yet the function returns 0. -/
theorem runNewStyleHooks_count_bug :
    Hook_runNewStyleHooks (toL "PostInstall") (toL "Install") []
        [{ sourceFilePath := toL "a.hook", phase := toL "PostInstall", ops := [],
           paths := [], negations := [], command := [], needsPaths := false }]
        false true (fun _ => true) = (1, ([] : List Str)) ∧
    Hook_runNewStyleHooks (toL "PostInstall") (toL "Install") []
        [{ sourceFilePath := toL "a.hook", phase := toL "PostInstall", ops := [],
           paths := [], negations := [], command := toL "exit 1", needsPaths := false }]
        false true (fun _ => false) = (0, [toL "exit 1"]) := by
  constructor
  · decide
  · decide

/-! ## Repository manifest precedence (claim C6)

Embeds the package-cache construction of Installer::installPackage
(chroot_util.cpp, lines 2028-2065): repositories are visited in
repos.conf order, and each parsed manifest entry is inserted into
packageSourceCache only when its name is not yet present. -/

/-- One manifest entry insertion: packageSourceCache[name] is set to the
pair of repository url and manifest node only when the name is absent. -/
def cacheInsert {α : Type} (url : Str) (cache : List (Str × (Str × α)))
    (pkg : Str × α) : List (Str × (Str × α)) :=
  if (cache.lookup pkg.1).isSome then cache else cache ++ [(pkg.1, (url, pkg.2))]

/-- The manifest-loading loop: every successfully parsed repository, in
configured order, inserts its package nodes in sequence order. -/
def buildPackageCache {α : Type} (repos : List (Str × List (Str × α))) :
    List (Str × (Str × α)) :=
  repos.foldl (fun cache repo => repo.2.foldl (cacheInsert repo.1) cache) []

theorem cacheInsert_fold_lookup {α : Type} (name url : Str)
    (pkgs : List (Str × α)) :
    ∀ cache : List (Str × (Str × α)),
      (pkgs.foldl (cacheInsert url) cache).lookup name =
        (cache.lookup name).or
          ((pkgs.find? fun pkg => pkg.1 == name).map fun pkg => (url, pkg.2)) := by
  induction pkgs with
  | nil =>
    intro cache
    simp [Option.or_none]
  | cons pkg ps ih =>
    intro cache
    simp only [List.foldl_cons, List.find?_cons]
    cases hb : (pkg.1 == name) with
    | true =>
      have hbe : pkg.1 = name := by
        have := hb
        simpa using this
      rw [ih]
      cases hcl : cache.lookup name with
      | some v =>
        have : (cacheInsert url cache pkg).lookup name = some v := by
          rw [cacheInsert]
          have hsome : (cache.lookup pkg.1).isSome := by
            rw [hbe, hcl]
            rfl
          rw [if_pos hsome]
          exact hcl
        rw [this]
        rfl
      | none =>
        have : (cacheInsert url cache pkg).lookup name = some (url, pkg.2) := by
          rw [cacheInsert]
          have hnone : ¬ (cache.lookup pkg.1).isSome := by
            rw [hbe, hcl]
            simp
          rw [if_neg hnone, List.lookup_append, hcl, Option.none_or]
          simp [hbe]
        rw [this]
        rfl
    | false =>
      rw [ih]
      have : (cacheInsert url cache pkg).lookup name = cache.lookup name := by
        rw [cacheInsert]
        by_cases hsome : (cache.lookup pkg.1).isSome
        · rw [if_pos hsome]
        · rw [if_neg hsome, List.lookup_append]
          have hne : pkg.1 ≠ name := by simpa using hb
          have hb2 : (name == pkg.1) = false := by
            simpa using Ne.symm hne
          have : List.lookup name [(pkg.1, (url, pkg.2))] = none := by
            simp [List.lookup, hb2]
          rw [this, Option.or_none]
      rw [this]

/-- Claim C6: for every name, packageSourceCache maps the name to the
first repository, in configured order, whose parsed manifest declares
that name (and within that repository to the first node declaring it);
a name declared by no repository is absent. -/
theorem packageSourceCache_first_repo_wins {α : Type}
    (repos : List (Str × List (Str × α))) (name : Str) :
    (buildPackageCache repos).lookup name =
      repos.findSome? fun repo =>
        (repo.2.find? fun pkg => pkg.1 == name).map fun pkg => (repo.1, pkg.2) := by
  suffices h : ∀ cache : List (Str × (Str × α)),
      (repos.foldl (fun c repo => repo.2.foldl (cacheInsert repo.1) c) cache).lookup name =
        (cache.lookup name).or
          (repos.findSome? fun repo =>
            (repo.2.find? fun pkg => pkg.1 == name).map fun pkg => (repo.1, pkg.2)) by
    have := h []
    simpa [buildPackageCache] using this
  induction repos with
  | nil =>
    intro cache
    simp [Option.or_none]
  | cons repo rs ih =>
    intro cache
    simp only [List.foldl_cons, List.findSome?_cons]
    rw [ih, cacheInsert_fold_lookup]
    rw [Option.or_assoc]
    cases hfind : ((repo.2.find? fun pkg => pkg.1 == name).map fun pkg => (repo.1, pkg.2)) with
    | some v => simp
    | none => simp

/-! ## Cycle-tolerant installation order (claim C1)

Embeds computeInstallationOrderCycleTolerant (chroot_util.cpp,
lines 1844-1921).  The caller (installPackage) builds the graph mapping
each dependency name to the list of packages that depend on it
(depGraph[depName].push_back(pkgName)), which is the orientation the
claim describes.  The unordered containers of the source are modelled in
insertion order; the concrete run below is insensitive to that order
because its Kahn phase emits a single node and the tail is sorted. -/

/-- The dependency graph handed to the planner: each package name maps
to the list of packages that depend on it. -/
abbrev DependencyGraph := List (Str × List Str)

/-- Set-like insertion in first-insertion order, modelling
unordered_set::insert. -/
def insertNew (acc : List Str) (x : Str) : List Str :=
  if x ∈ acc then acc else acc ++ [x]

/-- The gather loop: every pair key and every listed name joins
allPackages (and the inDegree map with value 0). -/
def gatherAllPackages (g : DependencyGraph) : List Str :=
  g.foldl (fun acc pr => pr.2.foldl insertNew (insertNew acc pr.1)) []

/-- The in-degree computation: for each pair, every name in its list has
its count incremented (the map-membership guard always holds because the
gather loop inserted every such name). -/
def inDegreeInit (g : DependencyGraph) (x : Str) : Int :=
  g.foldl (fun n pr => n + (pr.2.count x : Int)) 0

/-- The decrement pass run when currentPkg is emitted: for every pair
whose list contains currentPkg, the in-degree of the pair's key is
decremented, and a key reaching exactly zero is pushed onto the queue. -/
def kahnDecrement (g : DependencyGraph) (all : List Str) (cur : Str)
    (deg : Str → Int) : ((Str → Int) × List Str) :=
  g.foldl
    (fun st pr =>
      if cur ∈ pr.2 then
        if pr.1 ∈ all then
          let nv := st.1 pr.1 - 1
          (fun x => if x = pr.1 then nv else st.1 x,
            if nv = 0 then st.2 ++ [pr.1] else st.2)
        else st
      else st)
    (deg, [])

/-- The Kahn queue loop, with fuel strictly larger than the number of
queue pops that can ever occur. -/
def kahnLoop (g : DependencyGraph) (all : List Str) :
    Nat → (Str → Int) → List Str → List Str → (List Str × (Str → Int))
  | 0, deg, _, acc => (acc, deg)
  | _ + 1, deg, [], acc => (acc, deg)
  | fuel + 1, deg, cur :: q, acc =>
    let st := kahnDecrement g all cur deg
    kahnLoop g all fuel st.1 (q ++ st.2) (acc ++ [cur])

/-- computeInstallationOrderCycleTolerant (chroot_util.cpp,
lines 1844-1921).  none models the runtime_error thrown on a final size
mismatch. -/
def computeInstallationOrderCycleTolerant (g : DependencyGraph) :
    Option (List Str) :=
  let all := gatherAllPackages g
  let q0 := all.filter fun x => decide (inDegreeInit g x = 0)
  let res := kahnLoop g all (2 * all.length + 1) (fun x => inDegreeInit g x) q0 []
  if res.1.length < all.length then
    let cycleNodes := all.filter fun x => decide (res.2 x > 0)
    let order2 := res.1 ++ List.insertionSort strLe cycleNodes
    if order2.length ≠ all.length then none else some order2
  else some res.1

/-- Claim C1 is a code bug: on the acyclic chain where A depends on B
and B depends on C (graph, in dependency-to-dependents orientation:
C maps to B, B maps to A), the planner returns C, A, B - the dependency
B is placed after its dependent A although no cycle exists.  The
decrement step of the source searches for the emitted node inside the
value lists and decrements the key, which with this graph orientation
decrements the dependencies of the emitted node instead of its
dependents; as a consequence no queue push ever fires and every node
with a dependency lands in the lexicographic tail. -/
theorem computeInstallationOrder_chain_eval :
    computeInstallationOrderCycleTolerant
        [(toL "A", []), (toL "B", [toL "A"]), (toL "C", [toL "B"])] =
      some [toL "C", toL "A", toL "B"] ∧
    List.indexOf (toL "B") [toL "C", toL "A", toL "B"] >
      List.indexOf (toL "A") [toL "C", toL "A", toL "B"] := by
  constructor
  · decide
  · decide

/-! ## File removal (claim C2)

Embeds removeFiles (list.cpp, lines 508-591).  The filesystem is
modelled as an association list from absolute paths to entry kinds;
operations resolve their path argument lexically (as the kernel resolves
dot-dot during the underlying system calls) and act on the entry at the
resolved key.  Keys of a well-formed filesystem are resolved paths and
pairwise distinct. -/

/-- Kind of a filesystem entry as distinguished by the source through
fs::symlink_status: directory, regular file, or symlink. -/
inductive FKind where
  | file : FKind
  | symlink : FKind
  | dir : FKind
  deriving DecidableEq

/-- The filesystem: an association list from paths to entry kinds. -/
abbrev FileSys := List (Str × FKind)

/-- Splits a path on slashes, keeping empty components. -/
def splitSlashAux : List Char → List Char → List Str
  | [], acc => [acc.reverse]
  | '/' :: rest, acc => acc.reverse :: splitSlashAux rest []
  | c :: rest, acc => splitSlashAux rest (c :: acc)

/-- Lexical path resolution as performed by the kernel on an absolute
path: empty and dot components vanish, dot-dot pops the previous
component. -/
def resolvePath (p : Str) : Str :=
  let comps := (splitSlashAux p []).foldl
    (fun acc c =>
      if c = [] ∨ c = toL "." then acc
      else if c = toL ".." then acc.dropLast
      else acc ++ [c])
    ([] : List Str)
  '/' :: List.intercalate (toL "/") comps

/-- fs::path operator-slash: an absolute right operand replaces the
left operand entirely. -/
def joinPath (a b : Str) : Str :=
  if b.head? = some '/' then b else a ++ toL "/" ++ b

/-- The leading-slash strip applied to each listed path before joining
with the install root. -/
def stripSlash : Str → Str
  | '/' :: r => r
  | p => p

/-- Existence and kind at a path (fs::exists and type tests on
fs::symlink_status). -/
def lookupFS (fs : FileSys) (p : Str) : Option FKind :=
  fs.lookup (resolvePath p)

/-- fs::remove at a path: the entry at the resolved key disappears. -/
def eraseFS (fs : FileSys) (p : Str) : FileSys :=
  fs.filter fun e => !(e.1 == resolvePath p)

/-- fs::is_empty on a directory: no entry lies strictly below it. -/
def isEmptyDirFS (fs : FileSys) (p : Str) : Bool :=
  fs.all fun e => !((resolvePath p ++ toL "/").isPrefixOf e.1)

/-- One iteration of the first removal pass of removeFiles: a path
containing dot-dot is skipped with a warning; the leading slash is
stripped; a missing entry is a warning; a directory is removed only when
empty; every other entry kind is removed unconditionally. -/
def pass1Step (installDir : Str) (fs : FileSys) (relPath : Str) : FileSys :=
  if decide ((toL "..") <:+: relPath) then fs
  else
    let cleaned := stripSlash relPath
    if cleaned = [] then fs
    else
      let absPath := joinPath installDir cleaned
      match lookupFS fs absPath with
      | none => fs
      | some FKind.dir => if isEmptyDirFS fs absPath then eraseFS fs absPath else fs
      | some _ => eraseFS fs absPath

/-- One iteration of the second sweep of removeFiles: no dot-dot check;
an existing, empty directory at the path is removed. -/
def pass2Step (installDir : Str) (fs : FileSys) (relPath : Str) : FileSys :=
  let cleaned := stripSlash relPath
  if cleaned = [] then fs
  else
    let absPath := joinPath installDir cleaned
    match lookupFS fs absPath with
    | some FKind.dir => if isEmptyDirFS fs absPath then eraseFS fs absPath else fs
    | _ => fs

/-- removeFiles (list.cpp, lines 508-591): sort by descending length and
run the first pass, then sort ascending and sweep directories.  The
second component collects the dot-dot paths skipped with a warning in
the first pass. -/
def removeFiles (filesToRemove : List Str) (installDir : Str) (fs : FileSys) :
    FileSys × List Str :=
  let sortedDesc := List.insertionSort
    (fun a b : Str => b.length ≤ a.length) filesToRemove
  let fs1 := sortedDesc.foldl (pass1Step installDir) fs
  let warns := sortedDesc.filter fun p => decide ((toL "..") <:+: p)
  let sortedAsc := List.insertionSort
    (fun a b : Str => a.length ≤ b.length) filesToRemove
  (sortedAsc.foldl (pass2Step installDir) fs1, warns)

/-- Counterexample to claim C2 as stated: the listed path contains
dot-dot and is skipped (with a warning) by the first pass, yet the
second, ascending sweep performs no dot-dot check and deletes the empty
directory at slash-r-slash-b, reachable only through that unsafe path -
the claim says no filesystem entry reachable through such a path is ever
deleted in either pass. -/
theorem removeFiles_dotdot_counterexample :
    removeFiles [toL "/a/../b"] (toL "/r")
        [(toL "/r/a", FKind.dir), (toL "/r/b", FKind.dir)] =
      ([(toL "/r/a", FKind.dir)], [toL "/a/../b"]) := by
  decide

theorem eraseFS_keeps_of_ne (fs : FileSys) (p : Str) (e : Str × FKind)
    (he : e ∈ fs) (hne : e.1 ≠ resolvePath p) : e ∈ eraseFS fs p := by
  rw [eraseFS, List.mem_filter]
  exact ⟨he, by simpa using hne⟩

theorem mem_of_mem_eraseFS (fs : FileSys) (p : Str) (e : Str × FKind)
    (he : e ∈ eraseFS fs p) : e ∈ fs :=
  (List.mem_filter.mp he).1

theorem eraseFS_removed_key (fs : FileSys) (p : Str) (e : Str × FKind)
    (he : e ∈ fs) (hn : e ∉ eraseFS fs p) : e.1 = resolvePath p := by
  by_contra hne
  exact hn (eraseFS_keeps_of_ne fs p e he hne)

theorem eraseFS_nodup_keys (fs : FileSys) (p : Str)
    (h : (fs.map Prod.fst).Nodup) : ((eraseFS fs p).map Prod.fst).Nodup :=
  ((List.filter_sublist fs).map Prod.fst).nodup h

theorem nodup_keys_lookup (fs : FileSys) (hnd : (fs.map Prod.fst).Nodup)
    (e : Str × FKind) (he : e ∈ fs) : fs.lookup e.1 = some e.2 := by
  induction fs with
  | nil => cases he
  | cons x xs ih =>
    have hnd2 : (x.1 :: xs.map Prod.fst).Nodup := by
      rw [← List.map_cons]
      exact hnd
    obtain ⟨hnotin, htail⟩ := List.nodup_cons.mp hnd2
    rcases List.mem_cons.mp he with he1 | he2
    · subst he1
      simp [List.lookup]
    · have hx1 : e.1 ≠ x.1 := by
        intro hk
        refine hnotin ?_
        rw [← hk]
        exact List.mem_map_of_mem Prod.fst he2
      have hb : (e.1 == x.1) = false := by simpa using hx1
      simp only [List.lookup, hb]
      exact ih htail he2

theorem pass1Step_skip_dotdot (dir : Str) (fs : FileSys) (p : Str)
    (h : decide ((toL "..") <:+: p) = true) : pass1Step dir fs p = fs := by
  rw [pass1Step, if_pos h]

theorem pass1Step_cases (dir : Str) (fs : FileSys) (p : Str) :
    pass1Step dir fs p = fs ∨
      (decide ((toL "..") <:+: p) = false ∧
        pass1Step dir fs p = eraseFS fs (joinPath dir (stripSlash p))) := by
  rw [pass1Step]
  by_cases hdd : decide ((toL "..") <:+: p) = true
  · left
    rw [if_pos hdd]
  · rw [if_neg hdd]
    by_cases hcl : stripSlash p = []
    · left
      simp [hcl]
    · simp only [if_neg hcl]
      cases hlk : lookupFS fs (joinPath dir (stripSlash p)) with
      | none => left; rfl
      | some k =>
        cases k with
        | dir =>
          by_cases hem : isEmptyDirFS fs (joinPath dir (stripSlash p)) = true
          · right
            exact ⟨by simpa using hdd, by rw [if_pos hem]⟩
          · left
            rw [if_neg hem]
        | file => right; exact ⟨by simpa using hdd, rfl⟩
        | symlink =>
          right
          exact ⟨by simpa using hdd, rfl⟩

theorem pass2Step_cases (dir : Str) (fs : FileSys) (p : Str) :
    pass2Step dir fs p = fs ∨
      (lookupFS fs (joinPath dir (stripSlash p)) = some FKind.dir ∧
        isEmptyDirFS fs (joinPath dir (stripSlash p)) = true ∧
        pass2Step dir fs p = eraseFS fs (joinPath dir (stripSlash p))) := by
  rw [pass2Step]
  by_cases hcl : stripSlash p = []
  · left
    simp [hcl]
  · simp only [if_neg hcl]
    cases hlk : lookupFS fs (joinPath dir (stripSlash p)) with
    | none => left; rfl
    | some k =>
      cases k with
      | dir =>
        by_cases hem : isEmptyDirFS fs (joinPath dir (stripSlash p)) = true
        · right
          exact ⟨rfl, hem, by rw [if_pos hem]⟩
        · left
          rw [if_neg hem]
      | file =>
        left
        rfl
      | symlink =>
        left
        rfl

theorem pass1Step_nodup (dir : Str) (fs : FileSys) (p : Str)
    (h : (fs.map Prod.fst).Nodup) :
    ((pass1Step dir fs p).map Prod.fst).Nodup := by
  rcases pass1Step_cases dir fs p with he | ⟨-, he⟩
  · rw [he]; exact h
  · rw [he]; exact eraseFS_nodup_keys _ _ h

theorem pass2Step_keeps_nondir (dir : Str) (fs : FileSys) (p : Str)
    (hnd : (fs.map Prod.fst).Nodup) (e : Str × FKind) (he : e ∈ fs)
    (hk : e.2 ≠ FKind.dir) : e ∈ pass2Step dir fs p := by
  rcases pass2Step_cases dir fs p with h | ⟨hlk, -, h⟩
  · rw [h]; exact he
  · rw [h]
    refine eraseFS_keeps_of_ne _ _ _ he ?_
    intro hkey
    rw [lookupFS] at hlk
    have := nodup_keys_lookup fs hnd e he
    rw [hkey] at this
    rw [this] at hlk
    exact hk (Option.some.inj hlk)

theorem pass2Step_nodup (dir : Str) (fs : FileSys) (p : Str)
    (h : (fs.map Prod.fst).Nodup) :
    ((pass2Step dir fs p).map Prod.fst).Nodup := by
  rcases pass2Step_cases dir fs p with he | ⟨-, -, he⟩
  · rw [he]; exact h
  · rw [he]; exact eraseFS_nodup_keys _ _ h

theorem fold_pass1_removed (dir : Str) :
    ∀ (ps : List Str) (fs : FileSys), (fs.map Prod.fst).Nodup →
      ∀ e : Str × FKind, e ∈ fs → e ∉ ps.foldl (pass1Step dir) fs →
        ∃ p ∈ ps, decide ((toL "..") <:+: p) = false ∧
          e.1 = resolvePath (joinPath dir (stripSlash p)) := by
  intro ps
  induction ps with
  | nil =>
    intro fs _ e he hn
    exact absurd he hn
  | cons p0 rest ih =>
    intro fs hnd e he hn
    rw [List.foldl_cons] at hn
    by_cases hm : e ∈ pass1Step dir fs p0
    · obtain ⟨p, hp, hpc, hpk⟩ :=
        ih (pass1Step dir fs p0) (pass1Step_nodup dir fs p0 hnd) e hm hn
      exact ⟨p, List.mem_cons_of_mem _ hp, hpc, hpk⟩
    · rcases pass1Step_cases dir fs p0 with hcase | ⟨hdd, hcase⟩
      · rw [hcase] at hm
        exact absurd he hm
      · rw [hcase] at hm
        exact ⟨p0, List.mem_cons_self _ _, hdd,
          eraseFS_removed_key fs _ e he hm⟩

theorem fold_pass1_nodup (dir : Str) :
    ∀ (ps : List Str) (fs : FileSys), (fs.map Prod.fst).Nodup →
      ((ps.foldl (pass1Step dir) fs).map Prod.fst).Nodup := by
  intro ps
  induction ps with
  | nil => intro fs h; exact h
  | cons p0 rest ih =>
    intro fs h
    rw [List.foldl_cons]
    exact ih _ (pass1Step_nodup dir fs p0 h)

theorem fold_pass2_keeps_nondir (dir : Str) :
    ∀ (ps : List Str) (fs : FileSys), (fs.map Prod.fst).Nodup →
      ∀ e : Str × FKind, e ∈ fs → e.2 ≠ FKind.dir →
        e ∈ ps.foldl (pass2Step dir) fs := by
  intro ps
  induction ps with
  | nil =>
    intro fs _ e he _
    exact he
  | cons p0 rest ih =>
    intro fs hnd e he hk
    rw [List.foldl_cons]
    exact ih _ (pass2Step_nodup dir fs p0 hnd) e
      (pass2Step_keeps_nondir dir fs p0 hnd e he hk) hk

/-- Claim C2, amended: the dot-dot refusal belongs to the first pass
only.  Conjuncts: a listed path containing dot-dot leaves the state of
the first pass unchanged; the second, ascending sweep never removes
anything but an existing empty directory at the listed path, yet runs
without a dot-dot check (so an empty directory reachable through a
dot-dot path can be deleted there, as the counterexample shows); every
listed dot-dot path is among the warned-and-skipped paths; and on a
well-formed filesystem a file or symlink is only ever deleted through a
listed dot-dot-free path resolving to its own location. -/
theorem removeFiles_dotdot_pass_structure :
    (∀ (dir : Str) (fs : FileSys) (p : Str),
        decide ((toL "..") <:+: p) = true → pass1Step dir fs p = fs) ∧
    (∀ (dir : Str) (fs : FileSys) (p : Str),
        pass2Step dir fs p = fs ∨
          (lookupFS fs (joinPath dir (stripSlash p)) = some FKind.dir ∧
            isEmptyDirFS fs (joinPath dir (stripSlash p)) = true ∧
            pass2Step dir fs p = eraseFS fs (joinPath dir (stripSlash p)))) ∧
    (∀ (files : List Str) (dir : Str) (fs : FileSys) (p : Str),
        p ∈ files → decide ((toL "..") <:+: p) = true →
          p ∈ (removeFiles files dir fs).2) ∧
    (∀ (files : List Str) (dir : Str) (fs : FileSys),
        (fs.map Prod.fst).Nodup →
          ∀ e : Str × FKind, e ∈ fs → e.2 ≠ FKind.dir →
            e ∉ (removeFiles files dir fs).1 →
              ∃ p ∈ files, decide ((toL "..") <:+: p) = false ∧
                e.1 = resolvePath (joinPath dir (stripSlash p))) := by
  refine ⟨pass1Step_skip_dotdot, pass2Step_cases, ?_, ?_⟩
  · intro files dir fs p hp hdd
    rw [removeFiles]
    simp only
    rw [List.mem_filter]
    exact ⟨(List.mem_insertionSort _).mpr hp, hdd⟩
  · intro files dir fs hnd e he hk hn
    rw [removeFiles] at hn
    simp only at hn
    by_cases hm : e ∈ (List.insertionSort (fun a b : Str => b.length ≤ a.length)
        files).foldl (pass1Step dir) fs
    · exact absurd
        (fold_pass2_keeps_nondir dir _ _
          (fold_pass1_nodup dir _ fs hnd) e hm hk) hn
    · obtain ⟨p, hp, hpc, hpk⟩ := fold_pass1_removed dir _ fs hnd e he hm
      exact ⟨p, (List.mem_insertionSort _).mp hp, hpc, hpk⟩

/-- Witness for the amended claim C2: applying the final conjunct at a
one-file filesystem whose single regular file is removed through the
listed dot-dot-free path slash-x. -/
theorem removeFiles_dotdot_pass_structure_witness :
    ∃ p ∈ [toL "/x"], decide ((toL "..") <:+: p) = false ∧
      (toL "/r/x" : Str) = resolvePath (joinPath (toL "/r") (stripSlash p)) :=
  removeFiles_dotdot_pass_structure.2.2.2 [toL "/x"] (toL "/r")
    [(toL "/r/x", FKind.file)] (by decide) (toL "/r/x", FKind.file)
    (by decide) (by decide) (by decide)

/-! ## Package removal (claims C3 and C7)

Embeds the helpers of list.cpp - getReverseDependencies,
getOrphanedDependencies, getFilesToRemove, updateDatabase (the record
splice) - together with Installer::isPackageInstalled
(chroot_util.cpp), and the removePackages state machine.  File-system
effects (hooks, file deletion) are recorded as events; the installed
database is the list of its lines. -/

/-- Index of the first occurrence of a substring, as std::string::find;
none plays the role of npos. -/
def findInfixIdx (needle : Str) : Str → Option Nat
  | [] => if needle = [] then some 0 else none
  | c :: rest =>
    if needle.isPrefixOf (c :: rest) then some 0
    else (findInfixIdx needle rest).map (· + 1)

/-- The record-header test of the list.cpp scanners: the first
occurrence of space-slash sits exactly at the end of the line. -/
def isDbHeader (line : Str) : Bool :=
  match findInfixIdx (toL " /") line with
  | some i => decide (i = line.length - 2)
  | none => false

/-- The package name of a header line: everything before the trailing
space-slash. -/
def headerName (line : Str) : Str :=
  line.take (line.length - 2)

/-- getReverseDependencies (list.cpp, lines 351-395): collect the names
of all records whose Dependencies section contains the package name as
a trimmed line. -/
def getReverseDependenciesLoop (packageName : Str) :
    List Str → Str → Bool → List Str
  | [], _, _ => []
  | line :: rest, cur, inDeps =>
    if isDbHeader line then
      getReverseDependenciesLoop packageName rest (headerName line) false
    else if line = toL "Dependencies:" then
      if cur ≠ [] then getReverseDependenciesLoop packageName rest cur true
      else getReverseDependenciesLoop packageName rest cur inDeps
    else if inDeps then
      if trimWs line = packageName then
        cur :: getReverseDependenciesLoop packageName rest cur inDeps
      else if line = dbTerminator then
        getReverseDependenciesLoop packageName rest [] false
      else getReverseDependenciesLoop packageName rest cur inDeps
    else if line = dbTerminator then
      getReverseDependenciesLoop packageName rest [] false
    else getReverseDependenciesLoop packageName rest cur inDeps

/-- getReverseDependencies over a database given as its lines. -/
def getReverseDependencies (packageName : Str) (db : List Str) : List Str :=
  getReverseDependenciesLoop packageName db [] false

/-- Replace-or-append for the packageDependencies map, modelling
unordered_map operator-bracket assignment. -/
def setEntry (m : List (Str × List Str)) (k : Str) (v : List Str) :
    List (Str × List Str) :=
  if (m.lookup k).isSome then m.map (fun e => if e.1 = k then (k, v) else e)
  else m ++ [(k, v)]

/-- Append a dependency to an existing map entry, modelling push_back on
packageDependencies[currentPackage]. -/
def appendDep (m : List (Str × List Str)) (k : Str) (d : Str) :
    List (Str × List Str) :=
  m.map fun e => if e.1 = k then (e.1, e.2 ++ [d]) else e

/-- The gathering pass of getOrphanedDependencies (list.cpp,
lines 396-462): every header contributes to allInstalledPackages and
resets its dependency list; trimmed non-empty lines of a Dependencies
section are collected for the current record. -/
def orphanParseLoop :
    List Str → List Str → List (Str × List Str) → Str → Bool →
      (List Str × List (Str × List Str))
  | [], acc, m, _, _ => (acc, m)
  | line :: rest, acc, m, cur, inDeps =>
    if isDbHeader line then
      orphanParseLoop rest (insertNew acc (headerName line))
        (setEntry m (headerName line) []) (headerName line) false
    else if cur ≠ [] ∧ line = toL "Dependencies:" then
      orphanParseLoop rest acc m cur true
    else if inDeps then
      if trimWs line ≠ [] ∧ trimWs line ≠ dbTerminator then
        orphanParseLoop rest acc (appendDep m cur (trimWs line)) cur inDeps
      else if line = dbTerminator then
        orphanParseLoop rest acc m [] false
      else orphanParseLoop rest acc m cur inDeps
    else if line = dbTerminator then
      orphanParseLoop rest acc m [] false
    else orphanParseLoop rest acc m cur inDeps

/-- The union of the dependency lists of every record other than the
excluded package. -/
def requiredDeps (m : List (Str × List Str)) (excluding : Str) : List Str :=
  m.foldl (fun acc e => if e.1 = excluding then acc else e.2.foldl insertNew acc) []

/-- getOrphanedDependencies (list.cpp, lines 396-462): every installed
package, other than the excluded one, that is not required by any other
record. -/
def getOrphanedDependencies (db : List Str) (excludingPackage : Str) : List Str :=
  let parsed := orphanParseLoop db [] [] [] false
  let req := requiredDeps parsed.2 excludingPackage
  parsed.1.filter fun p => decide (p ≠ excludingPackage) && !(req.contains p)

/-- getFilesToRemove (list.cpp, lines 464-506): the lines of the Files
section of the named record (prefix-matched header) that begin with a
slash. -/
def getFilesToRemoveLoop (hdr : Str) : List Str → Bool → Bool → List Str
  | [], _, _ => []
  | line :: rest, inPkg, inFiles =>
    if hdr.isPrefixOf line then getFilesToRemoveLoop hdr rest true false
    else if inPkg then
      if line = toL "Files:" then getFilesToRemoveLoop hdr rest true true
      else if line = toL "Dependencies:" ∨ line = dbTerminator then
        getFilesToRemoveLoop hdr rest (line ≠ dbTerminator) false
      else if inFiles then
        if line.head? = some '/' then
          line :: getFilesToRemoveLoop hdr rest true true
        else getFilesToRemoveLoop hdr rest true true
      else getFilesToRemoveLoop hdr rest true false
    else getFilesToRemoveLoop hdr rest false false

/-- getFilesToRemove over a database given as its lines. -/
def getFilesToRemove (packageName : Str) (db : List Str) : List Str :=
  getFilesToRemoveLoop (packageName ++ toL " /") db false false

/-- Installer::isPackageInstalled (chroot_util.cpp, lines 1433-1458):
some line of the database has name-space-slash as a prefix. -/
def Installer_isPackageInstalled (packageName : Str) (db : List Str) : Bool :=
  db.any fun l => (packageName ++ toL " /").isPrefixOf l

/-- The copy loop of updateDatabase (list.cpp, lines 593-660), the
record splice run on removal: lines from the exact header line through
the terminator are dropped, everything else is copied. -/
def spliceLoop (hdr : Str) : List Str → Bool → List Str
  | [], _ => []
  | line :: rest, skip =>
    if line = hdr then spliceLoop hdr rest true
    else if skip && (line == dbTerminator) then spliceLoop hdr rest false
    else if !skip then line :: spliceLoop hdr rest skip
    else spliceLoop hdr rest skip

/-- updateDatabase (list.cpp, lines 593-660) as a pure function on the
database lines. -/
def updateDatabase (packageName : Str) (db : List Str) : List Str :=
  spliceLoop (packageName ++ toL " /") db false

/-- The hard-coded critical package list of list.cpp (lines 232-238). -/
def criticalPackages : List Str :=
  [toL "glibc", toL "linux", toL "coreutils", toL "bash", toL "systemd",
   toL "util-linux", toL "linux-zen", toL "linux-api-headers", toL "dracut",
   toL "linux-zen-headers", toL "sh"]

/-- Observable actions of removePackages, in program order.  The
orphanScan event records the database after the splice, the current
package, the queue and processed set before the scan, and the names
appended to the queue. -/
inductive REvent where
  | warnStarpack : Str → REvent
  | warnCritical : Str → REvent
  | notInstalled : Str → REvent
  | blocked : Str → List Str → REvent
  | preHooks : Str → REvent
  | filesRemoved : Str → List Str → REvent
  | spliced : Str → REvent
  | postHooks : Str → REvent
  | orphanScan : List Str → Str → List Str → List Str → List Str → REvent
  deriving DecidableEq

/-- The mutable state of the removePackages loop. -/
structure RPState where
  db : List Str
  queue : List Str
  processed : List Str
  succeeded : List Str
  events : List REvent
  deriving DecidableEq

/-- The orphan enqueue loop of step H: each orphan not already processed
and not already in the (growing) queue is appended. -/
def enqueueOrphansQ (processed : List Str) : List Str → List Str → List Str
  | q, [] => q
  | q, d :: ds =>
    if d ∈ processed ∨ d ∈ q then enqueueOrphansQ processed q ds
    else enqueueOrphansQ processed (q ++ [d]) ds

/-- One full run of the while loop of removePackages (list.cpp,
lines 661-800), driven by fuel (each unit allows one queue pop; any
fuel at least initial-queue-length plus twice the record count of the
database is enough). -/
def removePackagesLoop (packageNames : List Str) (force : Bool) :
    Nat → RPState → RPState
  | 0, st => st
  | fuel + 1, st =>
    match hq : st.queue with
    | [] => st
    | cur :: rest =>
      if cur ∈ st.processed then
        removePackagesLoop packageNames force fuel { st with queue := rest }
      else
        let st1 : RPState :=
          { st with queue := rest, processed := st.processed ++ [cur] }
        if cur = toL "starpack" then
          removePackagesLoop packageNames force fuel
            { st1 with events := st1.events ++ [REvent.warnStarpack cur] }
        else if cur ∈ criticalPackages then
          removePackagesLoop packageNames force fuel
            { st1 with events := st1.events ++ [REvent.warnCritical cur] }
        else if !(Installer_isPackageInstalled cur st.db) then
          removePackagesLoop packageNames force fuel
            { st1 with events := st1.events ++ [REvent.notInstalled cur] }
        else
          let blocking :=
            if force then []
            else (getReverseDependencies cur st.db).filter fun rd =>
              !(packageNames.contains rd) && !(st1.processed.contains rd)
          if !force && !blocking.isEmpty then
            removePackagesLoop packageNames force fuel
              { st1 with events := st1.events ++ [REvent.blocked cur blocking] }
          else
            let files := getFilesToRemove cur st.db
            let db2 := updateDatabase cur st.db
            let orphans := getOrphanedDependencies db2 cur
            let newQueue := enqueueOrphansQ st1.processed st1.queue orphans
            let appended := newQueue.drop st1.queue.length
            removePackagesLoop packageNames force fuel
              { db := db2, queue := newQueue, processed := st1.processed,
                succeeded := st1.succeeded ++ [cur],
                events := st1.events ++
                  [REvent.preHooks cur, REvent.filesRemoved cur files,
                   REvent.spliced cur, REvent.postHooks cur,
                   REvent.orphanScan db2 cur st1.queue st1.processed appended] }

/-- removePackages (list.cpp, lines 661-800) from the initial state. -/
def removePackages (packageNames : List Str) (db : List Str) (force : Bool)
    (fuel : Nat) : RPState :=
  removePackagesLoop packageNames force fuel
    { db := db, queue := packageNames, processed := [], succeeded := [],
      events := [] }

/-- An event that removes the files of, or splices the record of, the
given package. -/
def eventTouches (p : Str) : REvent → Bool
  | REvent.filesRemoved q _ => q == p
  | REvent.spliced q => q == p
  | _ => false

/-- An event warning that the given package is refused. -/
def eventWarns (p : Str) : REvent → Bool
  | REvent.warnStarpack q => q == p
  | REvent.warnCritical q => q == p
  | _ => false

lemma enqueueOrphansQ_spec (processed : List Str) :
    ∀ ds q, ∃ extra, enqueueOrphansQ processed q ds = q ++ extra ∧
      extra.Nodup ∧
      (∀ x ∈ extra, x ∈ ds ∧ x ∉ processed ∧ x ∉ q) ∧
      (∀ x ∈ ds, x ∈ processed ∨ x ∈ q ∨ x ∈ extra) := by
  intro ds
  induction ds with
  | nil =>
    intro q
    exact ⟨[], by simp [enqueueOrphansQ], List.nodup_nil, by simp, by simp⟩
  | cons d ds ih =>
    intro q
    by_cases hd : d ∈ processed ∨ d ∈ q
    · obtain ⟨extra, hEq, hNd, hProp, hCompl⟩ := ih q
      refine ⟨extra, ?_, hNd, ?_, ?_⟩
      · rw [enqueueOrphansQ, if_pos hd]; exact hEq
      · intro x hx
        obtain ⟨h1, h2, h3⟩ := hProp x hx
        exact ⟨List.mem_cons_of_mem _ h1, h2, h3⟩
      · intro x hx
        rcases List.mem_cons.mp hx with rfl | hx'
        · rcases hd with hd | hd
          · exact Or.inl hd
          · exact Or.inr (Or.inl hd)
        · exact hCompl x hx'
    · obtain ⟨extra, hEq, hNd, hProp, hCompl⟩ := ih (q ++ [d])
      push_neg at hd
      refine ⟨d :: extra, ?_, ?_, ?_, ?_⟩
      · rw [enqueueOrphansQ, if_neg]
        · rw [hEq, List.append_assoc]; rfl
        · push_neg; exact hd
      · refine List.nodup_cons.mpr ⟨?_, hNd⟩
        intro hmem
        have := (hProp d hmem).2.2
        exact this (by simp)
      · intro x hx
        rcases List.mem_cons.mp hx with rfl | hx'
        · exact ⟨List.mem_cons_self _ _, hd.1, hd.2⟩
        · obtain ⟨h1, h2, h3⟩ := hProp x hx'
          refine ⟨List.mem_cons_of_mem _ h1, h2, fun hq => h3 ?_⟩
          exact List.mem_append_left _ hq
      · intro x hx
        rcases List.mem_cons.mp hx with rfl | hx'
        · exact Or.inr (Or.inr (List.mem_cons_self _ _))
        · rcases hCompl x hx' with h | h | h
          · exact Or.inl h
          · rcases List.mem_append.mp h with h' | h'
            · exact Or.inr (Or.inl h')
            · have hxd : x = d := by simpa using h'
              exact Or.inr (Or.inr (by rw [hxd]; exact List.mem_cons_self _ _))
          · exact Or.inr (Or.inr (List.mem_cons_of_mem _ h))

/-- The property every orphanScan event actually satisfies.  Soundness:
each appended name is an orphan of the recorded (post-splice) database,
the appended names are pairwise distinct, and none was already processed
or already in the queue.  Completeness: every orphan the scan reports is
either already processed, already in the queue, or appended. -/
def orphanScanOK : REvent → Bool
  | REvent.orphanScan dbAt cur qb pb app =>
      decide app.Nodup &&
      (app.all fun x =>
        decide (x ∈ getOrphanedDependencies dbAt cur) &&
        !(pb.contains x) && !(qb.contains x)) &&
      (getOrphanedDependencies dbAt cur).all fun x =>
        pb.contains x || qb.contains x || app.contains x
  | _ => true

lemma orphanScanOK_event (dbAt : List Str) (cur : Str) (qb pb : List Str) :
    orphanScanOK (REvent.orphanScan dbAt cur qb pb
      ((enqueueOrphansQ pb qb (getOrphanedDependencies dbAt cur)).drop
        qb.length)) = true := by
  obtain ⟨extra, hEq, hNd, hProp, hCompl⟩ :=
    enqueueOrphansQ_spec pb (getOrphanedDependencies dbAt cur) qb
  rw [hEq, List.drop_left]
  simp only [orphanScanOK, Bool.and_eq_true, decide_eq_true_eq]
  refine ⟨⟨hNd, ?_⟩, ?_⟩
  · rw [List.all_eq_true]
    intro x hx
    obtain ⟨h1, h2, h3⟩ := hProp x hx
    simp only [Bool.and_eq_true, decide_eq_true_eq, Bool.not_eq_true']
    exact ⟨⟨h1, by simp [h2]⟩, by simp [h3]⟩
  · rw [List.all_eq_true]
    intro x hx
    rcases hCompl x hx with h | h | h
    · simp [h]
    · simp [h]
    · simp [h]

lemma removePackagesLoop_orphanOK (names : List Str) (force : Bool) :
    ∀ fuel st, (st.events.all orphanScanOK) = true →
      ((removePackagesLoop names force fuel st).events.all orphanScanOK) = true := by
  intro fuel
  induction fuel with
  | zero =>
    intro st h
    simpa [removePackagesLoop] using h
  | succ fuel ih =>
    intro st h
    rw [removePackagesLoop]
    cases hq : st.queue with
    | nil => exact h
    | cons cur rest =>
      dsimp only
      by_cases hmem : cur ∈ st.processed
      · rw [if_pos hmem]
        exact ih _ h
      · rw [if_neg hmem]
        by_cases hstar : cur = toL "starpack"
        · rw [if_pos hstar]
          refine ih _ ?_
          simp [List.all_append, h, orphanScanOK]
        · rw [if_neg hstar]
          by_cases hcrit : cur ∈ criticalPackages
          · rw [if_pos hcrit]
            refine ih _ ?_
            simp [List.all_append, h, orphanScanOK]
          · rw [if_neg hcrit]
            cases hinst : Installer_isPackageInstalled cur st.db
            · simp only [hinst, Bool.not_false, if_true]
              refine ih _ ?_
              simp [List.all_append, h, orphanScanOK]
            · simp only [hinst, Bool.not_true, Bool.false_eq_true, if_false]
              by_cases hbl :
                  (!force &&
                    !((if force then [] else
                        (getReverseDependencies cur st.db).filter fun rd =>
                          !(names.contains rd) &&
                          !((st.processed ++ [cur]).contains rd)).isEmpty)) = true
              · rw [if_pos hbl]
                refine ih _ ?_
                simp [List.all_append, h, orphanScanOK]
              · rw [if_neg hbl]
                refine ih _ ?_
                have h5 := orphanScanOK_event (updateDatabase cur st.db) cur
                  rest (st.processed ++ [cur])
                rw [List.all_append, h, Bool.true_and]
                simp only [List.all_cons, List.all_nil, h5, Bool.and_true]
                rfl

/-- A two-record database: foo and bar, unrelated (no Dependencies
sections), each owning one file. -/
def c7db : List Str :=
  [toL "foo /", toL "Version: 1.0", toL "Files:", toL "/usr/bin/foo",
   dbTerminator,
   toL "bar /", toL "Version: 1.0", toL "Files:", toL "/usr/bin/bar",
   dbTerminator]

/-- C7 counterexample: removing foo from a database whose other record
bar is unrelated to foo enqueues (and then removes) bar.  bar is not a
dependency of foo and did not become orphaned as a result of the
removal: it already had no reverse dependencies and was already listed
by getOrphanedDependencies before foo's record was spliced.  The scan
reports every currently-unrequired package, not the newly-orphaned
dependencies. -/
theorem removePackages_orphan_counterexample :
    (REvent.orphanScan (updateDatabase (toL "foo") c7db) (toL "foo") []
        [toL "foo"] [toL "bar"]) ∈
      (removePackages [toL "foo"] c7db false 5).events ∧
    getReverseDependencies (toL "bar") c7db = [] ∧
    Installer_isPackageInstalled (toL "bar") c7db = true ∧
    getOrphanedDependencies c7db (toL "foo") = [toL "bar"] ∧
    (removePackages [toL "foo"] c7db false 5).succeeded =
      [toL "foo", toL "bar"] := by
  decide

/-- C7 (amended): in every run of removePackages, every orphan-scan
event appends exactly the names that getOrphanedDependencies reports
for the post-splice database (packages not required by any remaining
record, excluding the current one) and that are neither already
processed nor already in the queue: every appended name is such a
reported orphan passing that filter, the appended names are pairwise
distinct, and conversely every reported orphan is already processed,
already in the queue, or appended. -/
theorem removePackages_orphan_enqueue_characterization
    (packageNames : List Str) (db : List Str) (force : Bool) (fuel : Nat) :
    ((removePackages packageNames db force fuel).events.all orphanScanOK)
      = true :=
  removePackagesLoop_orphanOK packageNames force fuel _ rfl

lemma removePackagesLoop_protects (names : List Str) (force : Bool) (p : Str)
    (hp : p = toL "starpack" ∨ p ∈ criticalPackages) :
    ∀ fuel st,
      (st.events.all fun e => !eventTouches p e) = true →
      (p ∈ st.processed → (st.events.any (eventWarns p)) = true) →
      ((removePackagesLoop names force fuel st).events.all
        fun e => !eventTouches p e) = true ∧
      (p ∈ (removePackagesLoop names force fuel st).processed →
        ((removePackagesLoop names force fuel st).events.any (eventWarns p))
          = true) := by
  intro fuel
  induction fuel with
  | zero =>
    intro st h1 h2
    exact ⟨h1, h2⟩
  | succ fuel ih =>
    intro st h1 h2
    rw [removePackagesLoop]
    cases hq : st.queue with
    | nil => exact ⟨h1, h2⟩
    | cons cur rest =>
      dsimp only
      by_cases hmem : cur ∈ st.processed
      · rw [if_pos hmem]
        exact ih _ h1 h2
      · rw [if_neg hmem]
        by_cases hstar : cur = toL "starpack"
        · rw [if_pos hstar]
          refine ih _ ?_ ?_
          · rw [List.all_append, h1, Bool.true_and]
            rfl
          · intro hpmem
            rcases List.mem_append.mp hpmem with hpo | hpc
            · simp [List.any_append, h2 hpo]
            · have hpc' : p = cur := by simpa using hpc
              simp [List.any_append, eventWarns, hpc']
        · rw [if_neg hstar]
          by_cases hcrit : cur ∈ criticalPackages
          · rw [if_pos hcrit]
            refine ih _ ?_ ?_
            · rw [List.all_append, h1, Bool.true_and]
              rfl
            · intro hpmem
              rcases List.mem_append.mp hpmem with hpo | hpc
              · simp [List.any_append, h2 hpo]
              · have hpc' : p = cur := by simpa using hpc
                simp [List.any_append, eventWarns, hpc']
          · rw [if_neg hcrit]
            have hne : p ≠ cur := by
              intro hpe
              rcases hp with hs | hc
              · rw [hpe] at hs; exact hstar hs
              · rw [hpe] at hc; exact hcrit hc
            have hpo : p ∈ st.processed ++ [cur] → p ∈ st.processed := by
              intro hpmem
              rcases List.mem_append.mp hpmem with h | h
              · exact h
              · exact absurd (by simpa using h) hne
            cases hinst : Installer_isPackageInstalled cur st.db
            · simp only [hinst, Bool.not_false, if_true]
              refine ih _ ?_ ?_
              · rw [List.all_append, h1, Bool.true_and]
                rfl
              · intro hpmem
                simp [List.any_append, h2 (hpo hpmem)]
            · simp only [hinst, Bool.not_true, Bool.false_eq_true, if_false]
              by_cases hbl :
                  (!force &&
                    !((if force then [] else
                        (getReverseDependencies cur st.db).filter fun rd =>
                          !(names.contains rd) &&
                          !((st.processed ++ [cur]).contains rd)).isEmpty)) = true
              · rw [if_pos hbl]
                refine ih _ ?_ ?_
                · rw [List.all_append, h1, Bool.true_and]
                  rfl
                · intro hpmem
                  simp [List.any_append, h2 (hpo hpmem)]
              · rw [if_neg hbl]
                refine ih _ ?_ ?_
                · have hb : (cur == p) = false := by
                    simp [Ne.symm hne]
                  rw [List.all_append, h1, Bool.true_and]
                  show (!(cur == p) && (!(cur == p) && true)) = true
                  rw [hb]
                  rfl
                · intro hpmem
                  simp [List.any_append, h2 (hpo hpmem)]

/-- C3: for every request list, database state, force flag and fuel,
removePackages never emits a file-removal or record-splice event for a
package named starpack or for a package on the hard-coded critical
list, and whenever such a package is processed (in particular when it
arrives through the orphan queue) a refusal warning event for it is
emitted. -/
theorem removePackages_protects_critical
    (packageNames : List Str) (db : List Str) (force : Bool) (fuel : Nat)
    (p : Str) (hp : p = toL "starpack" ∨ p ∈ criticalPackages) :
    ((removePackages packageNames db force fuel).events.all
      fun e => !eventTouches p e) = true ∧
    (p ∈ (removePackages packageNames db force fuel).processed →
      ((removePackages packageNames db force fuel).events.any (eventWarns p))
        = true) :=
  removePackagesLoop_protects packageNames force p hp fuel _ rfl
    (fun h => absurd h (List.not_mem_nil p))

theorem removePackages_protects_critical_witness :
    ((removePackages [toL "glibc"] [toL "glibc /", dbTerminator] true 3).events.all
      fun e => !eventTouches (toL "glibc") e) = true ∧
    ((toL "glibc") ∈
        (removePackages [toL "glibc"] [toL "glibc /", dbTerminator] true 3).processed →
      ((removePackages [toL "glibc"] [toL "glibc /", dbTerminator] true 3).events.any
        (eventWarns (toL "glibc"))) = true) :=
  removePackages_protects_critical [toL "glibc"] [toL "glibc /", dbTerminator]
    true 3 (toL "glibc") (Or.inr (by decide))
